import Mathlib

/-!
Verification of the pulse-metrics engine of `flotter/reposcan`
(`cmd/reposcan/reposcan.go`).

The repository file contains two revisions of the program: an early one
(lines 1-426: fixed thresholds, no config, `isoWeeks` based on December 31)
and the current one (lines 428-1065: JSON config, allowlist, per-PR weight
normalisation, `isoWeeks` based on December 28).  The embedding below models
the current revision; the two superseded functions that the claims mention
(`isoWeeks` of the first revision and the old average-size `getMerged`) are
kept under a `V1` suffix.

Modelling conventions:
* instants (`time.Time`) are integers counting seconds since the Unix epoch,
  all in UTC; `t1.Before(t2)` is `t1 < t2`, `t1.After(t2)` is `t2 < t1`;
* `float32` metric values are modelled as exact rationals (every value the
  claims touch is exactly representable);
* the external calendar libraries (`time.Time.ISOWeek`, `time.Date` and
  `snabb/isoweek.StartTime`) are modelled at day granularity by the
  proleptic-Gregorian conversions `daysFromCivil` / `civilYearFromDays`
  below, proved to be mutually inverse, with day 0 = 1970-01-01 (a Thursday,
  so a day `z` has Monday-based weekday `(z + 3) % 7` and the Thursdays are
  exactly the days divisible by 7);
* Go `panic` is modelled by an `Option` result (`none` = panic); the Go
  `map[string]User` is modelled as an association list with unique keys.
-/

/-- Days since 1970-01-01 of the proleptic-Gregorian date `(y, m, d)`
(the standard era-based civil-from-date conversion used by calendar
libraries; `Int` division here is floor division). -/
def daysFromCivil (y m d : Int) : Int :=
  let y2 := if m ≤ 2 then y - 1 else y
  let era := y2 / 400
  let yoe := y2 - era * 400
  let mp := (m + 9) % 12
  let doy := (153 * mp + 2) / 5 + d - 1
  let doe := yoe * 365 + yoe / 4 - yoe / 100 + doy
  era * 146097 + doe - 719468

/-- Index of the 400-year Gregorian era containing day `z`. -/
def eraOf (z : Int) : Int := (z + 719468) / 146097

/-- Day-of-era (0 ≤ · ≤ 146096) of day `z` within its 400-year era. -/
def doeOf (z : Int) : Int := z + 719468 - eraOf z * 146097

/-- Year-of-era (0 ≤ · ≤ 399) of day `z`: the March-based year within the
era, computed as a first guess `doe / 366` corrected upward by one when the
next year-of-era has already started. -/
def yoeOf (z : Int) : Int :=
  let doe := doeOf z
  let yoe0 := doe / 366
  if yoe0 < 399 ∧ 365 * (yoe0 + 1) + (yoe0 + 1) / 4 - (yoe0 + 1) / 100 ≤ doe
  then yoe0 + 1 else yoe0

/-- Day of the March-based year (0 = March 1; January 1 is day 306) of day
`z`. -/
def doyOf (z : Int) : Int :=
  doeOf z - (365 * yoeOf z + yoeOf z / 4 - yoeOf z / 100)

/-- The proleptic-Gregorian calendar year containing day `z` (days since
1970-01-01).  Model of the year component returned by the `time` library's
date conversion; `civilYear_bounds` below proves it correct against
`daysFromCivil`.  January and February (March-based day 306 and up) belong
to the calendar year after the March-based year. -/
def civilYearFromDays (z : Int) : Int :=
  if 306 ≤ doyOf z then yoeOf z + eraOf z * 400 + 1 else yoeOf z + eraOf z * 400

/-- The Thursday of the week (Monday..Sunday) containing day `z`. -/
def thuOf (z : Int) : Int := z + 3 - (z + 3) % 7

/-- The ISO 8601 year of day `z`: the calendar year containing the Thursday
of its week. -/
def isoYearOf (z : Int) : Int := civilYearFromDays (thuOf z)

/-- The ISO 8601 week number of day `z`: one more than the number of whole
weeks between the Thursday of its week and January 1 of the ISO year (this
is Go's `yday/7 + 1`). -/
def isoWeekNumOf (z : Int) : Int :=
  (thuOf z - daysFromCivil (isoYearOf z) 1 1) / 7 + 1

/-- Model of Go's `time.Time.ISOWeek` at day granularity: the ISO 8601 year
and week number of day `z`. -/
def isoWeekOf (z : Int) : Int × Int := (isoYearOf z, isoWeekNumOf z)

/-- The Monday starting ISO week 1 of ISO year `y` (the week containing
January 4). -/
def week1Monday (y : Int) : Int :=
  daysFromCivil y 1 4 - (daysFromCivil y 1 4 + 3) % 7

/-- Model of `isoweek.StartTime` at day granularity: the Monday starting ISO
week `w` of ISO year `y`. -/
def isoWeekStart (y w : Int) : Int :=
  week1Monday y + 7 * (w - 1)

/-- Number of ISO weeks in ISO year `y` as the spec defines it: the length,
in weeks, of the span from the first day of ISO week 1 of `y` to the first
day of ISO week 1 of `y + 1`. -/
def numISOWeeksSpec (y : Int) : Int :=
  (week1Monday (y + 1) - week1Monday y) / 7

/-! ### Data model (reposcan.go, current revision lines 737-1000)

`PrEntry` mirrors the GraphQL pull-request record; `Author.Login` is
flattened into the field `login`.  `Config` flattens the `Settings` JSON
structure (`contributors.cooldown`, `contributors.allowlist`, `pr.high`,
`pr.low`); the `graphs.start` override and the repo list play no role in
the claims.  `User.End` is renamed `endT` (`end` is a Lean keyword) and
`Pull.Open` is renamed `isOpen` (`open` is a Lean keyword). -/

structure PrEntry where
  additions : Int
  closedAt : Option Int
  createdAt : Int
  mergedAt : Option Int
  deletions : Int
  state : String
  login : String
deriving DecidableEq

structure Config where
  cooldown : Int
  allowlist : List String
  prHigh : Int
  prLow : Int
deriving DecidableEq

structure User where
  start : Int
  endT : Int
deriving DecidableEq

structure Pull where
  merged : Bool
  closed : Bool
  isOpen : Bool
  lines : Int
deriving DecidableEq

structure Pulse where
  start : Int
  endT : Int
  days : Int
  contributors : Int
  prOpen : Rat
  prMerged : Rat
  prOpenNorm : Rat
  prMergedNorm : Rat
deriving DecidableEq

/-- The login prefix of the bot accounts skipped by `getUsers`
(reposcan.go:825 checks `strings.HasPrefix(login, "renovate")`). -/
def botLoginStart : String := "renovate"

/-- Lookup in the association-list model of Go's `map[string]User`. -/
def lookupUser : List (String × User) → String → Option User
  | [], _ => none
  | (k, v) :: rest, l => if k == l then some v else lookupUser rest l

/-- Insert-or-replace in the association-list model of Go's
`map[string]User`. -/
def setUser : List (String × User) → String → User → List (String × User)
  | [], l, u => [(l, u)]
  | (k, v) :: rest, l, u =>
    if k == l then (l, u) :: rest else (k, v) :: setUser rest l u

/-- The end of the activity span a pull request contributes to its author
(reposcan.go:829-836): merge time if merged, else close time if closed,
else `now`. -/
def prSpanEnd (now : Int) (r : PrEntry) : Int :=
  match r.mergedAt with
  | some m => m
  | none =>
    match r.closedAt with
    | some c => c
    | none => now

/-- The cooldown promotion (reposcan.go:849-854): when `now` minus the end
is less than `cooldown` months (a month being `30 * 24` hours, here in
seconds), promote the end to `now`. -/
def cooldownPromote (cfg : Config) (now e : Int) : Int :=
  if now - e < cfg.cooldown * 30 * 24 * 3600 then now else e

/-- One iteration of the `getUsers` loop body (reposcan.go:819-860) for one
pull request `r`, given the current map and the current instant `now`
(model of the `time.Now()` calls). -/
def getUsersStep (cfg : Config) (now : Int) (users : List (String × User))
    (r : PrEntry) : List (String × User) :=
  if r.login == "" then users
  else if String.startsWith r.login botLoginStart then users
  else
    let st : Int × Int :=
      match lookupUser users r.login with
      | some val =>
        (if val.start < r.createdAt then val.start else r.createdAt,
         if prSpanEnd now r < val.endT then val.endT else prSpanEnd now r)
      | none => (r.createdAt, prSpanEnd now r)
    setUser users r.login ⟨st.1, cooldownPromote cfg now st.2⟩

/-- `getUsers` (reposcan.go:817-862): fold the per-PR step over the pull
list, starting from the empty map. -/
def getUsers (cfg : Config) (now : Int) (pulls : List PrEntry) :
    List (String × User) :=
  pulls.foldl (getUsersStep cfg now) []

/-- `allowlistedUser` (reposcan.go:864-876): an empty allowlist admits every
login, otherwise only the listed logins. -/
def allowlistedUser (cfg : Config) (login : String) : Bool :=
  if cfg.allowlist.length = 0 then true
  else cfg.allowlist.any (fun u => u == login)

/-- `pulseContributors` (reposcan.go:878-890): count the users admitted by
the allowlist whose interval overlaps `[s, e)` (started strictly before `e`
and not ended strictly before `s`). -/
def pulseContributors (cfg : Config) (users : List (String × User))
    (s e : Int) : Int :=
  users.foldl
    (fun contributors kv =>
      if allowlistedUser cfg kv.1 = false then contributors
      else if kv.2.start < e ∧ ¬(kv.2.endT < s) then contributors + 1
      else contributors) 0

/-- `pulsePulls` (reposcan.go:899-934).  `none` models the Go nil-pointer
panic that dereferences `p.ClosedAt` when a pull in a terminal state has no
close timestamp. -/
def pulsePulls (cfg : Config) : List PrEntry → Int → Int → Option (List Pull)
  | [], _, _ => some []
  | p :: ps, s, e =>
    if allowlistedUser cfg p.login = false then pulsePulls cfg ps s e
    else
      let notClosedBeforeStart : Bool :=
        match p.closedAt with
        | none => true
        | some c => !decide (c < s)
      if notClosedBeforeStart && decide (p.createdAt < e) then
        if p.state ≠ "OPEN" then
          match p.closedAt with
          | none => none
          | some c =>
            if !decide (c < s) && decide (c < e) then
              (pulsePulls cfg ps s e).map
                (fun l =>
                  ⟨p.mergedAt.isSome, !p.mergedAt.isSome, false,
                   p.additions + p.deletions⟩ :: l)
            else pulsePulls cfg ps s e
        else
          (pulsePulls cfg ps s e).map
            (fun l => ⟨false, false, true, p.additions + p.deletions⟩ :: l)
      else pulsePulls cfg ps s e

/-- Classification of a single pull request for the window `[s, e)`,
assuming no panic: `some pu` when `pulsePulls` would append `pu` for this
record, `none` when it would skip it.  `pulsePulls_eq_filterMap` proves the
correspondence. -/
def classifyPull (cfg : Config) (s e : Int) (p : PrEntry) : Option Pull :=
  if allowlistedUser cfg p.login = false then none
  else
    let notClosedBeforeStart : Bool :=
      match p.closedAt with
      | none => true
      | some c => !decide (c < s)
    if notClosedBeforeStart && decide (p.createdAt < e) then
      if p.state ≠ "OPEN" then
        match p.closedAt with
        | none => none
        | some c =>
          if !decide (c < s) && decide (c < e) then
            some ⟨p.mergedAt.isSome, !p.mergedAt.isSome, false,
                  p.additions + p.deletions⟩
          else none
      else some ⟨false, false, true, p.additions + p.deletions⟩
    else none

/-- Well-formedness of a pull record (the §3 data invariant: a terminal
pull has a close timestamp).  `pulsePulls` can only panic on records that
violate it. -/
def wfPull (p : PrEntry) : Bool := p.state == "OPEN" || p.closedAt.isSome

/-- `prSizeWeight` (reposcan.go:936-943), over exact rationals. -/
def prSizeWeight (cfg : Config) (lines : Rat) : Rat :=
  if lines > (cfg.prHigh : Rat) then 3
  else if lines > (cfg.prLow : Rat) then 2
  else 1

/-- `getOpen` (reposcan.go:945-953): raw count of open pulls. -/
def getOpen (cfg : Config) (pulls : List Pull) : Rat :=
  pulls.foldl (fun count p => if p.isOpen = true then count + 1 else count) 0

/-- `getOpenNorm` (reposcan.go:955-966): sum of per-pull size weights over
the open pulls, divided by the contributor count, 0 when that count is 0. -/
def getOpenNorm (cfg : Config) (pulls : List Pull) (con : Int) : Rat :=
  let count := pulls.foldl
    (fun count p =>
      if p.isOpen = true then count + prSizeWeight cfg (p.lines : Rat)
      else count) 0
  if con = 0 then 0 else count / (con : Rat)

/-- `getMerged` (reposcan.go:968-976): raw count of merged pulls. -/
def getMerged (cfg : Config) (pulls : List Pull) : Rat :=
  pulls.foldl (fun count p => if p.merged = true then count + 1 else count) 0

/-- `getMergedNorm` (reposcan.go:978-989): sum of per-pull size weights over
the merged pulls, divided by the contributor count, 0 when that count is
0. -/
def getMergedNorm (cfg : Config) (pulls : List Pull) (con : Int) : Rat :=
  let count := pulls.foldl
    (fun count p =>
      if p.merged = true then count + prSizeWeight cfg (p.lines : Rat)
      else count) 0
  if con = 0 then 0 else count / (con : Rat)

/-- `prSizeWeight` of the first revision (reposcan.go:272-279): fixed
thresholds `pr_low = 50`, `pr_high = 500`. -/
def prSizeWeightV1 (lines : Rat) : Rat :=
  if lines > 500 then 3 else if lines > 50 then 2 else 1

/-- `getMerged` of the first revision (reposcan.go:323-342): accumulates the
total merged line count and the merged count, forms the average size, and
in normalising mode multiplies the count by the single weight of that
average and divides by the contributor count.  (In Go the average is a
`float32` division that yields NaN when the count is zero; the rational
model is only used on non-empty categories.) -/
def getMergedV1 (pulls : List Pull) (norm : Bool) (con : Int) : Rat :=
  let acc := pulls.foldl
    (fun (mc : Rat × Rat) p =>
      if p.merged = true then (mc.1 + (p.lines : Rat), mc.2 + 1) else mc)
    (0, 0)
  let avg := acc.1 / acc.2
  if norm = false then acc.2
  else if con = 0 then 0
  else acc.2 * prSizeWeightV1 avg / (con : Rat)

/-- `isoWeeks` of the current revision (reposcan.go:1002-1006): the ISO week
number of December 28 of the given year. -/
def isoWeeks (year : Int) : Int :=
  (isoWeekOf (daysFromCivil year 12 28)).2

/-- `isoWeeks` of the first revision (reposcan.go:359-362): the ISO week
number of December 31 of the given year. -/
def isoWeeksV1 (year : Int) : Int :=
  (isoWeekOf (daysFromCivil year 12 31)).2

/-- `isoWeekToPulseStart` (reposcan.go:1008-1016): collapse to the nearest
odd week at or below; `none` models the panic on a non-positive result. -/
def isoWeekToPulseStart (week : Int) : Option Int :=
  let week2 := if week % 2 = 0 then week - 1 else week
  if week2 ≤ 0 then none else some week2

/-- `nextPulseToIsoWeek` (reposcan.go:1018-1026): advance the cursor two
weeks, rolling over to week 1 of the next year when the result exceeds the
week count of the current ISO year. -/
def nextPulseToIsoWeek (year week : Int) : Int × Int :=
  if isoWeeks year < week + 2 then (year + 1, 1) else (year, week + 2)

/-- The loop of `getPulses` (reposcan.go:1038-1063), with an explicit fuel
bound on the number of iterations modelled (`none` = fuel exhausted before
the loop broke, or a `pulsePulls` panic).  Times are seconds; the window
boundaries are `86400 ·` the day-level ISO week starts. -/
def getPulsesLoop (cfg : Config) (users : List (String × User))
    (pulls : List PrEntry) (endI : Int) :
    Nat → Int → Int → Option (List Pulse)
  | 0, _, _ => none
  | fuel + 1, yearStart, weekStart =>
    let s := 86400 * isoWeekStart yearStart weekStart
    let yw := nextPulseToIsoWeek yearStart weekStart
    let e := 86400 * isoWeekStart yw.1 yw.2
    let d := (e - s) / 3600 / 24
    if endI < s then some []
    else
      let people := pulseContributors cfg users s e
      match pulsePulls cfg pulls s e with
      | none => none
      | some pp =>
        match getPulsesLoop cfg users pulls endI fuel yw.1 yw.2 with
        | none => none
        | some rest =>
          some ({ start := s, endT := e, days := d, contributors := people,
                  prOpen := getOpen cfg pp, prMerged := getMerged cfg pp,
                  prOpenNorm := getOpenNorm cfg pp people,
                  prMergedNorm := getMergedNorm cfg pp people } :: rest)

/-- `getPulses` (reposcan.go:1028-1065).  `none` models the panics (end
before start, non-positive pulse week, nil `ClosedAt` dereference) and fuel
exhaustion.  The ISO week of the start instant seeds the cursor, collapsed
to an odd week number. -/
def getPulses (cfg : Config) (startI endI : Int) (pulls : List PrEntry)
    (users : List (String × User)) (fuel : Nat) : Option (List Pulse) :=
  if endI < startI then none
  else
    match isoWeekToPulseStart (isoWeekOf (startI / 86400)).2 with
    | none => none
    | some weekStart =>
      getPulsesLoop cfg users pulls endI fuel (isoWeekOf (startI / 86400)).1
        weekStart

/-- Fuel that suffices for `getPulsesLoop` to reach its break condition
(windows advance by at least 7 days = 604800 seconds per iteration, and the
first window starts at most 14 days before `startI`). -/
def fuelFor (startI endI : Int) : Nat :=
  ((endI - startI + 16 * 86400).toNat / 604800) + 2

/-- The §4.4 size-weight tiers exactly as the spec words them: weight 1 up
to `low` lines, 2 above `low` up to `high`, 3 above `high`. -/
def sizeWeightSpec (cfg : Config) (lines : Int) : Rat :=
  if lines ≤ cfg.prLow then 1 else if lines ≤ cfg.prHigh then 2 else 3

/-- Contiguity of a window list: every window closes where the next one
opens (and is non-degenerate). -/
def pulseChain : List Pulse → Bool
  | [] => true
  | [w] => decide (w.start < w.endT)
  | w :: w2 :: rest =>
    decide (w.start < w.endT) && (w.endT == w2.start) && pulseChain (w2 :: rest)

/-- A window list forming a contiguous partition of `[s, ·)`: the first
window starts at `s` and each window closes where the next opens. -/
def chainFrom : Int → List Pulse → Prop
  | _, [] => True
  | s, w :: rest => w.start = s ∧ s < w.endT ∧ chainFrom w.endT rest

/-- The last boundary of a window list starting at `s`. -/
def chainEnd (s : Int) (ws : List Pulse) : Int :=
  (ws.getLast?.map Pulse.endT).getD s

/-- Validity of the PR timestamps (§3/§6: externally validated input data:
nothing is created or closed after `now`, and nothing is merged or closed
before it is created). -/
def prTimesValid (now : Int) (p : PrEntry) : Prop :=
  p.createdAt ≤ now ∧
  (∀ m ∈ p.mergedAt, p.createdAt ≤ m ∧ m ≤ now) ∧
  (∀ c ∈ p.closedAt, p.createdAt ≤ c ∧ c ≤ now)

/-- A login skipped by the contributor tracker: empty or bot-like
(reposcan.go:820-827). -/
def skippedLogin (login : String) : Bool :=
  login == "" || String.startsWith login botLoginStart

/-- Validity of the pulse cursor `(year, week)`: a positive odd week number
within the year's ISO week count.  The seed established by
`isoWeekToPulseStart` satisfies it and `nextPulseToIsoWeek` preserves
it. -/
def validCursor (y w : Int) : Prop :=
  1 ≤ w ∧ w ≤ isoWeeks y ∧ w % 2 = 1

/-- The pull requests that contribute to the contributor interval of
`login`: authored by that login and not skipped as empty or bot-like. -/
def userPrs (pulls : List PrEntry) (login : String) : List PrEntry :=
  pulls.filter (fun p => !skippedLogin p.login && p.login == login)

/-- Classification of a single pull request for a window with the author
filter disabled: what `classifyPull` does when the allowlist admits every
login.  It mentions neither the config's allowlist nor the author login, so
with an empty allowlist the classification is author-independent. -/
def classifyPullNoAllow (s e : Int) (p : PrEntry) : Option Pull :=
  let notClosedBeforeStart : Bool :=
    match p.closedAt with
    | none => true
    | some c => !decide (c < s)
  if notClosedBeforeStart && decide (p.createdAt < e) then
    if p.state ≠ "OPEN" then
      match p.closedAt with
      | none => none
      | some c =>
        if !decide (c < s) && decide (c < e) then
          some ⟨p.mergedAt.isSome, !p.mergedAt.isSome, false,
                p.additions + p.deletions⟩
        else none
    else some ⟨false, false, true, p.additions + p.deletions⟩
  else none

/-! Concrete data for the witnesses: the default configuration, a scan
range crossing the 53-week ISO year 2020 (2020-12-20 is day 18616,
2021-01-20 is day 18647), and sample pull requests.  The expected window
lists were computed from the model: the generator emits windows starting
on the Mondays of ISO weeks 51 and 53 of 2020 and weeks 1 and 3 of 2021
(days 18610, 18624, 18631, 18645), the middle window lasting 7 days. -/

def wCfg : Config := ⟨1, [], 500, 50⟩

def wStart : Int := 86400 * 18616

def wEnd : Int := 86400 * 18647

/-- A merged pull request: created 2020-12-16, merged and closed
2020-12-29 (inside the second window). -/
def wPrMerged : PrEntry :=
  ⟨5, some (86400 * 18625), 86400 * 18612, some (86400 * 18625), 5,
   "MERGED", "alice"⟩

/-- A still-open pull request created 2020-12-16. -/
def wPrOpen : PrEntry :=
  ⟨600, none, 86400 * 18612, none, 0, "OPEN", "bob"⟩

/-- A bot-authored still-open pull request. -/
def wPrBot : PrEntry :=
  ⟨2, none, 0, none, 3, "OPEN", "renovate-bot"⟩

/-- The window list of the witness range over an empty pull list. -/
def wPulses0 : List Pulse :=
  [⟨86400 * 18610, 86400 * 18624, 14, 0, 0, 0, 0, 0⟩,
   ⟨86400 * 18624, 86400 * 18631, 7, 0, 0, 0, 0, 0⟩,
   ⟨86400 * 18631, 86400 * 18645, 14, 0, 0, 0, 0, 0⟩,
   ⟨86400 * 18645, 86400 * 18659, 14, 0, 0, 0, 0, 0⟩]

/-- The window list of the witness range over `[wPrMerged]`: one merged
pull in the second window. -/
def wPulsesM : List Pulse :=
  [⟨86400 * 18610, 86400 * 18624, 14, 0, 0, 0, 0, 0⟩,
   ⟨86400 * 18624, 86400 * 18631, 7, 0, 0, 1, 0, 0⟩,
   ⟨86400 * 18631, 86400 * 18645, 14, 0, 0, 0, 0, 0⟩,
   ⟨86400 * 18645, 86400 * 18659, 14, 0, 0, 0, 0, 0⟩]

/-- The window list of the witness range over `[wPrOpen]`: the open pull
is counted once in every window. -/
def wPulsesO : List Pulse :=
  [⟨86400 * 18610, 86400 * 18624, 14, 0, 1, 0, 0, 0⟩,
   ⟨86400 * 18624, 86400 * 18631, 7, 0, 1, 0, 0, 0⟩,
   ⟨86400 * 18631, 86400 * 18645, 14, 0, 1, 0, 0, 0⟩,
   ⟨86400 * 18645, 86400 * 18659, 14, 0, 1, 0, 0, 0⟩]

-- sanity checks of the calendar model
example : daysFromCivil 1970 1 1 = 0 := by decide
example : civilYearFromDays 0 = 1970 := by decide
example : isoWeekOf 0 = (1970, 1) := by decide
example : daysFromCivil 2024 12 28 = 20085 := by decide
example : isoWeekOf 20085 = (2024, 52) := by decide

/-! ### Calendar lemmas -/

/-- January 1 of `y + 1` is 365 or 366 days after January 1 of `y`. -/
theorem jan1_next (y : Int) :
    daysFromCivil (y + 1) 1 1 - daysFromCivil y 1 1 = 365 ∨
    daysFromCivil (y + 1) 1 1 - daysFromCivil y 1 1 = 366 := by
  simp only [daysFromCivil]
  norm_num
  omega

/-- January 4 is three days after January 1. -/
theorem jan4_eq (y : Int) : daysFromCivil y 1 4 = daysFromCivil y 1 1 + 3 := by
  simp only [daysFromCivil]
  norm_num
  omega

/-- December 28 is always four days before the next January 1. -/
theorem dec28_eq (y : Int) :
    daysFromCivil y 12 28 = daysFromCivil (y + 1) 1 1 - 4 := by
  simp only [daysFromCivil]
  norm_num
  omega

/-- Decomposition of a day into era and day-of-era. -/
theorem era_doe_decomp (z : Int) :
    z + 719468 = 146097 * eraOf z + doeOf z ∧ 0 ≤ doeOf z ∧ doeOf z ≤ 146096 := by
  unfold doeOf eraOf
  refine ⟨by ring, by omega⟩

/-- The corrected year-of-era guess is in range, and the day-of-era falls
inside the March-based year it names (between 0 and 365 days from that
year's March 1). -/
theorem yoeOf_bounds (z : Int) :
    0 ≤ yoeOf z ∧ yoeOf z ≤ 399 ∧
    365 * yoeOf z + yoeOf z / 4 - yoeOf z / 100 ≤ doeOf z ∧
    doeOf z - (365 * yoeOf z + yoeOf z / 4 - yoeOf z / 100) ≤ 365 := by
  have hD : 0 ≤ doeOf z ∧ doeOf z ≤ 146096 := (era_doe_decomp z).2
  simp only [yoeOf]
  split
  · omega
  · omega

/-- Closed form for January 1 of the year `Y + 400 E + 1` (year-of-era `Y`
of era `E`). -/
theorem jan1day_formula (E Y y : Int) (hY0 : 0 ≤ Y) (hY1 : Y ≤ 399)
    (hy : y = Y + E * 400 + 1) :
    daysFromCivil y 1 1 = 146097 * E + 365 * Y + Y / 4 - Y / 100 + 306 - 719468 := by
  subst hy
  simp only [daysFromCivil]
  norm_num
  omega

/-- Correctness of `civilYearFromDays`: day `z` lies between January 1 of
the year attributed to it and January 1 of the following year. -/
theorem civilYear_bounds (z : Int) :
    daysFromCivil (civilYearFromDays z) 1 1 ≤ z ∧
    z < daysFromCivil (civilYearFromDays z + 1) 1 1 := by
  obtain ⟨hz, hD0, hD1⟩ := era_doe_decomp z
  obtain ⟨hY0, hY1, hS0, hS1⟩ := yoeOf_bounds z
  have hdoy : doyOf z = doeOf z - (365 * yoeOf z + yoeOf z / 4 - yoeOf z / 100) := rfl
  have hcy : civilYearFromDays z =
      if 306 ≤ doyOf z then yoeOf z + eraOf z * 400 + 1
      else yoeOf z + eraOf z * 400 := rfl
  by_cases h306 : 306 ≤ doyOf z
  · rw [if_pos h306] at hcy
    have e1 := jan1day_formula (eraOf z) (yoeOf z) (civilYearFromDays z) hY0 hY1
      (by omega)
    by_cases htop : yoeOf z = 399
    · have e2 := jan1day_formula (eraOf z + 1) 0 (civilYearFromDays z + 1)
        (by omega) (by omega) (by omega)
      omega
    · have e2 := jan1day_formula (eraOf z) (yoeOf z + 1) (civilYearFromDays z + 1)
        (by omega) (by omega) (by omega)
      omega
  · rw [if_neg h306] at hcy
    have e2 := jan1day_formula (eraOf z) (yoeOf z) (civilYearFromDays z + 1) hY0 hY1
      (by omega)
    by_cases hbot : yoeOf z = 0
    · have e1 := jan1day_formula (eraOf z - 1) 399 (civilYearFromDays z)
        (by omega) (by omega) (by omega)
      omega
    · have e1 := jan1day_formula (eraOf z) (yoeOf z - 1) (civilYearFromDays z)
        (by omega) (by omega) (by omega)
      omega

/-- January 1, as a function of the year, is strictly monotone. -/
theorem jan1_strictMono : StrictMono (fun y : Int => daysFromCivil y 1 1) :=
  strictMono_int_of_lt_succ (fun y => by have := jan1_next y; omega)

/-- A day between January 1 of year `y` and January 1 of year `y + 1` is
attributed to year `y`: `civilYearFromDays` is the unique section of
`daysFromCivil · 1 1`. -/
theorem civilYear_unique (x y : Int) (h1 : daysFromCivil y 1 1 ≤ x)
    (h2 : x < daysFromCivil (y + 1) 1 1) : civilYearFromDays x = y := by
  obtain ⟨b1, b2⟩ := civilYear_bounds x
  by_contra hne
  rcases lt_or_gt_of_ne hne with hlt | hgt
  · have : civilYearFromDays x + 1 ≤ y := by omega
    have := jan1_strictMono.monotone this
    simp only at this
    omega
  · have : y + 1 ≤ civilYearFromDays x := by omega
    have := jan1_strictMono.monotone this
    simp only at this
    omega

/-- Basic facts about the Thursday of a week: it is a multiple of 7 (day 0,
1970-01-01, is a Thursday) and lies within 3 days of the given day. -/
theorem thuOf_bounds (z : Int) :
    thuOf z % 7 = 0 ∧ z - 3 ≤ thuOf z ∧ thuOf z ≤ z + 3 := by
  unfold thuOf
  omega

/-- The first Thursday of year `y` (the Thursday of the week of January 4)
is a multiple of 7 and falls in the first six days of the year. -/
theorem firstThursday_bounds (y : Int) :
    (week1Monday y + 3) % 7 = 0 ∧
    daysFromCivil y 1 1 ≤ week1Monday y + 3 ∧
    week1Monday y + 3 ≤ daysFromCivil y 1 1 + 6 := by
  have h4 := jan4_eq y
  unfold week1Monday
  omega

/-- The Thursday of the week of December 28 of year `y` is the last
Thursday attributed to year `y`: it is a multiple of 7 and falls in the
last seven days before January 1 of year `y + 1`. -/
theorem lastThursday_bounds (y : Int) :
    thuOf (daysFromCivil y 12 28) % 7 = 0 ∧
    daysFromCivil (y + 1) 1 1 - 7 ≤ thuOf (daysFromCivil y 12 28) ∧
    thuOf (daysFromCivil y 12 28) < daysFromCivil (y + 1) 1 1 := by
  have h28 := dec28_eq y
  unfold thuOf
  omega

/-- The ISO year of December 28 of year `y` is `y` itself. -/
theorem isoYear_dec28 (y : Int) : isoYearOf (daysFromCivil y 12 28) = y := by
  have hlast := lastThursday_bounds y
  have hlen := jan1_next y
  unfold isoYearOf
  exact civilYear_unique _ y (by omega) (by omega)

/-- `isoWeeks` in terms of the last Thursday: one more than the number of
whole weeks from January 1 to the Thursday of the week of December 28. -/
theorem isoWeeks_thu (y : Int) :
    isoWeeks y =
      (thuOf (daysFromCivil y 12 28) - daysFromCivil y 1 1) / 7 + 1 := by
  unfold isoWeeks isoWeekOf isoWeekNumOf
  rw [isoYear_dec28]

/-- Every ISO year has 52 or 53 weeks. -/
theorem isoWeeks_52_or_53 (y : Int) : isoWeeks y = 52 ∨ isoWeeks y = 53 := by
  have hlast := lastThursday_bounds y
  have hlen := jan1_next y
  rw [isoWeeks_thu]
  omega

/-- ISO week 1 of year `y + 1` starts exactly `isoWeeks y` weeks after ISO
week 1 of year `y`: the two-week cursor of the pulse generator can roll
over with no gap and no overlap. -/
theorem week1Monday_next (y : Int) :
    week1Monday (y + 1) = week1Monday y + 7 * isoWeeks y := by
  have hF0 := firstThursday_bounds y
  have hF1 := firstThursday_bounds (y + 1)
  have hlast := lastThursday_bounds y
  have hlen := jan1_next y
  rw [isoWeeks_thu]
  omega

/-- The code's `isoWeeks` agrees with the spec's definition of the number
of ISO weeks in an ISO year. -/
theorem isoWeeks_eq_spec (y : Int) : isoWeeks y = numISOWeeksSpec y := by
  unfold numISOWeeksSpec
  rw [week1Monday_next]
  omega

/-- The ISO week data of an arbitrary day: the pair names the Monday of the
day's week, and the week number is between 1 and the week count of its ISO
year. -/
theorem isoWeekOf_self (z : Int) :
    isoWeekStart (isoYearOf z) (isoWeekNumOf z) = thuOf z - 3 ∧
    1 ≤ isoWeekNumOf z ∧ isoWeekNumOf z ≤ isoWeeks (isoYearOf z) := by
  have hy : isoYearOf z = civilYearFromDays (thuOf z) := rfl
  have hcb := civilYear_bounds (thuOf z)
  rw [← hy] at hcb
  have hF := firstThursday_bounds (isoYearOf z)
  have hlast := lastThursday_bounds (isoYearOf z)
  have hthu := thuOf_bounds z
  have hw : isoWeekNumOf z =
      (thuOf z - daysFromCivil (isoYearOf z) 1 1) / 7 + 1 := rfl
  have hws : isoWeekStart (isoYearOf z) (isoWeekNumOf z) =
      week1Monday (isoYearOf z) + 7 * (isoWeekNumOf z - 1) := rfl
  have hiso := isoWeeks_thu (isoYearOf z)
  omega

/-- `isoWeekOf` inverts `isoWeekStart` on valid cursors: the Monday of ISO
week `w` of year `y` (with `1 ≤ w ≤ isoWeeks y`) has exactly that ISO year
and week. -/
theorem isoWeekOf_isoWeekStart (y w : Int) (h1 : 1 ≤ w) (h2 : w ≤ isoWeeks y) :
    isoWeekOf (isoWeekStart y w) = (y, w) := by
  have hF := firstThursday_bounds y
  have hlast := lastThursday_bounds y
  have hiso := isoWeeks_thu y
  have hlen := jan1_next y
  have hM : isoWeekStart y w = week1Monday y + 7 * (w - 1) := rfl
  have hthu : thuOf (isoWeekStart y w) = isoWeekStart y w + 3 := by
    unfold thuOf
    omega
  have hyr : civilYearFromDays (thuOf (isoWeekStart y w)) = y := by
    apply civilYear_unique
    · omega
    · omega
  unfold isoWeekOf isoYearOf isoWeekNumOf isoYearOf
  rw [hyr]
  simp only [Prod.mk.injEq, true_and]
  omega


/-- `nextPulseToIsoWeek` preserves cursor validity. -/
theorem nextPulse_valid (y w : Int) (h : validCursor y w) :
    validCursor (nextPulseToIsoWeek y w).1 (nextPulseToIsoWeek y w).2 := by
  obtain ⟨h1, h2, h3⟩ := h
  have h52 := isoWeeks_52_or_53 (y + 1)
  unfold validCursor nextPulseToIsoWeek
  split <;> dsimp only <;> omega

/-- Advancing the cursor moves the window start forward by at least one
week (exactly two weeks in the common case, and by one week per remaining
week of the year at a year rollover). -/
theorem nextPulse_start_ge (y w : Int) (h : validCursor y w) :
    isoWeekStart y w + 7 ≤
      isoWeekStart (nextPulseToIsoWeek y w).1 (nextPulseToIsoWeek y w).2 := by
  obtain ⟨h1, h2, h3⟩ := h
  have hnext := week1Monday_next y
  unfold isoWeekStart nextPulseToIsoWeek
  split <;> dsimp only <;> omega

/-- The last boundary of a non-empty chain is the `endT` of its last
window; prepending shifts the base. -/
theorem chainEnd_cons (s : Int) (p : Pulse) (rest : List Pulse) :
    chainEnd s (p :: rest) = chainEnd p.endT rest := by
  unfold chainEnd
  cases hq : rest.getLast? with
  | none =>
    have hnil : rest = [] := List.getLast?_eq_none_iff.mp hq
    subst hnil
    rfl
  | some x =>
    have h2 : (p :: rest).getLast? = some x := by
      cases rest with
      | nil => simp at hq
      | cons q qs => rw [List.getLast?_cons_cons]; exact hq
    rw [h2]
    rfl

/-- The final boundary of a chain never precedes its base. -/
theorem chainFrom_le_chainEnd (ws : List Pulse) :
    ∀ s, chainFrom s ws → s ≤ chainEnd s ws := by
  induction ws with
  | nil =>
    intro s _
    have h0 : chainEnd s ([] : List Pulse) = s := rfl
    omega
  | cons p rest ih =>
    intro s h
    obtain ⟨hs, hlt, hrest⟩ := h
    rw [chainEnd_cons]
    have := ih p.endT hrest
    omega

/-- A chain is a contiguous window list in the sense of `pulseChain`. -/
theorem chainFrom_pulseChain (ws : List Pulse) :
    ∀ s, chainFrom s ws → pulseChain ws = true := by
  induction ws with
  | nil => intro s _; rfl
  | cons p rest ih =>
    intro s h
    obtain ⟨hs, hlt, hrest⟩ := h
    cases rest with
    | nil =>
      simp only [pulseChain, decide_eq_true_eq]
      omega
    | cons q qs =>
      obtain ⟨hq, hqlt, hqs⟩ := hrest
      simp only [pulseChain, Bool.and_eq_true, decide_eq_true_eq, beq_iff_eq]
      refine ⟨⟨by omega, by omega⟩, ?_⟩
      have := ih p.endT ⟨hq, hqlt, hqs⟩
      simpa [pulseChain] using this

/-- A point is covered by exactly one window of a chain when it lies within
the chain's overall span, and by none otherwise. -/
theorem chainFrom_count (c : Int) (ws : List Pulse) :
    ∀ s, chainFrom s ws →
      (ws.filter (fun v => decide (v.start ≤ c ∧ c < v.endT))).length =
        if s ≤ c ∧ c < chainEnd s ws then 1 else 0 := by
  induction ws with
  | nil =>
    intro s _
    have h0 : chainEnd s ([] : List Pulse) = s := rfl
    rw [h0]
    rw [if_neg (by omega)]
    rfl
  | cons p rest ih =>
    intro s h
    obtain ⟨hs, hlt, hrest⟩ := h
    have hend := chainFrom_le_chainEnd rest p.endT hrest
    have hrec := ih p.endT hrest
    rw [chainEnd_cons, List.filter_cons]
    by_cases hin : p.start ≤ c ∧ c < p.endT
    · rw [if_pos (decide_eq_true hin)]
      have hrest0 :
          (rest.filter (fun v => decide (v.start ≤ c ∧ c < v.endT))).length = 0 := by
        rw [hrec, if_neg (by omega)]
      rw [List.length_cons, hrest0, if_pos (by omega)]
    · rw [if_neg (by simpa using hin)]
      rw [hrec]
      by_cases h1 : p.endT ≤ c ∧ c < chainEnd p.endT rest
      · rw [if_pos h1, if_pos (by omega)]
      · rw [if_neg h1, if_neg (by omega)]

/-- On well-formed pull lists `pulsePulls` never panics and produces
exactly the per-record classifications, in order. -/
theorem pulsePulls_eq_filterMap (cfg : Config) (s e : Int) :
    ∀ pulls : List PrEntry, (∀ p ∈ pulls, wfPull p = true) →
      pulsePulls cfg pulls s e = some (pulls.filterMap (classifyPull cfg s e)) := by
  intro pulls
  induction pulls with
  | nil => intro _; rfl
  | cons p ps ih =>
    intro hwf
    have hp : wfPull p = true := hwf p (List.mem_cons_self p ps)
    have hps := ih (fun q hq => hwf q (List.mem_cons_of_mem p hq))
    rw [List.filterMap_cons]
    by_cases ha : allowlistedUser cfg p.login = false
    · have hcl : classifyPull cfg s e p = none := by
        unfold classifyPull
        rw [if_pos ha]
      rw [hcl]
      simp only [pulsePulls]
      rw [if_pos ha, hps]
    · cases hc : p.closedAt with
      | none =>
        have hst : p.state = "OPEN" := by
          unfold wfPull at hp
          rw [hc] at hp
          simpa using hp
        by_cases hcr : p.createdAt < e
        · have hcl : classifyPull cfg s e p =
              some ⟨false, false, true, p.additions + p.deletions⟩ := by
            unfold classifyPull
            rw [if_neg ha]
            simp [hc, hcr, hst]
          rw [hcl]
          simp only [pulsePulls]
          rw [if_neg ha]
          simp [hc, hcr, hst, hps]
        · have hcl : classifyPull cfg s e p = none := by
            unfold classifyPull
            rw [if_neg ha]
            simp [hc, hcr]
          rw [hcl]
          simp only [pulsePulls]
          rw [if_neg ha]
          simp [hc, hcr, hps]
      | some cv =>
        by_cases hguard : ¬(cv < s) ∧ p.createdAt < e
        · by_cases hst : p.state = "OPEN"
          · have hcl : classifyPull cfg s e p =
                some ⟨false, false, true, p.additions + p.deletions⟩ := by
              unfold classifyPull
              rw [if_neg ha]
              simp [hc, hguard.1, hguard.2, hst]
            rw [hcl]
            simp only [pulsePulls]
            rw [if_neg ha]
            simp [hc, hguard.1, hguard.2, hst, hps]
          · by_cases hcv : ¬(cv < s) ∧ cv < e
            · have hcl : classifyPull cfg s e p =
                  some ⟨p.mergedAt.isSome, !p.mergedAt.isSome, false,
                        p.additions + p.deletions⟩ := by
                unfold classifyPull
                rw [if_neg ha]
                simp [hc, hguard.1, hguard.2, hst, hcv.2]
              rw [hcl]
              simp only [pulsePulls]
              rw [if_neg ha]
              simp [hc, hguard.1, hguard.2, hst, hcv.2, hps]
            · have hcv2 : ¬(cv < e) := by
                intro h
                exact hcv ⟨hguard.1, h⟩
              have hcl : classifyPull cfg s e p = none := by
                unfold classifyPull
                rw [if_neg ha]
                simp [hc, hguard.1, hguard.2, hst, hcv2]
              rw [hcl]
              simp only [pulsePulls]
              rw [if_neg ha]
              simp [hc, hguard.1, hguard.2, hst, hcv2, hps]
        · have hcl : classifyPull cfg s e p = none := by
            unfold classifyPull
            rw [if_neg ha]
            rcases Decidable.not_and_iff_or_not.mp hguard with h1 | h2
            · simp [hc, Decidable.not_not.mp h1]
            · simp [hc, h2]
          rw [hcl]
          simp only [pulsePulls]
          rw [if_neg ha]
          rcases Decidable.not_and_iff_or_not.mp hguard with h1 | h2
          · simp [hc, Decidable.not_not.mp h1, hps]
          · simp [hc, h2, hps]

/-- Master invariant of the `getPulses` loop: whatever fuel it is given, a
successful run from a valid cursor produces a contiguous chain of windows
whose starts do not exceed `endI`, whose start days fall on odd ISO week
numbers, and whose final boundary lies strictly past `endI`; the chain is
empty exactly when the very first window start is already past `endI`. -/
theorem getPulsesLoop_spec (cfg : Config) (users : List (String × User))
    (pulls : List PrEntry) (endI : Int) :
    ∀ (fuel : Nat) (y w : Int) (ws : List Pulse), validCursor y w →
      getPulsesLoop cfg users pulls endI fuel y w = some ws →
      (endI < 86400 * isoWeekStart y w → ws = []) ∧
      (86400 * isoWeekStart y w ≤ endI →
        chainFrom (86400 * isoWeekStart y w) ws ∧ ws ≠ []) ∧
      (∀ v ∈ ws, v.start ≤ endI ∧ v.start < v.endT ∧
        isoWeekNumOf (v.start / 86400) % 2 = 1) ∧
      endI < chainEnd (86400 * isoWeekStart y w) ws := by
  intro fuel
  induction fuel with
  | zero =>
    intro y w ws _ h
    exact absurd h (by simp [getPulsesLoop])
  | succ n ih =>
    intro y w ws hvc h
    have hnext_vc := nextPulse_valid y w hvc
    have hnext_ge := nextPulse_start_ge y w hvc
    simp only [getPulsesLoop] at h
    by_cases hbr : endI < 86400 * isoWeekStart y w
    · rw [if_pos hbr] at h
      injection h with h
      subst h
      have hce : chainEnd (86400 * isoWeekStart y w) ([] : List Pulse) =
          86400 * isoWeekStart y w := rfl
      exact ⟨fun _ => rfl, fun hle => absurd hbr (by omega), by simp, by omega⟩
    · rw [if_neg hbr] at h
      cases hpp : pulsePulls cfg pulls (86400 * isoWeekStart y w)
          (86400 * isoWeekStart (nextPulseToIsoWeek y w).1
            (nextPulseToIsoWeek y w).2) with
      | none => rw [hpp] at h; simp at h
      | some pp =>
        rw [hpp] at h
        cases hrec : getPulsesLoop cfg users pulls endI n
            (nextPulseToIsoWeek y w).1 (nextPulseToIsoWeek y w).2 with
        | none => rw [hrec] at h; simp at h
        | some rest =>
          rw [hrec] at h
          simp only [Option.some.injEq] at h
          subst h
          obtain ⟨ih1, ih2, ih3, ih4⟩ :=
            ih (nextPulseToIsoWeek y w).1 (nextPulseToIsoWeek y w).2 rest
              hnext_vc hrec
          have hse : 86400 * isoWeekStart y w + 604800 ≤
              86400 * isoWeekStart (nextPulseToIsoWeek y w).1
                (nextPulseToIsoWeek y w).2 := by omega
          have hodd : isoWeekNumOf ((86400 * isoWeekStart y w) / 86400) % 2 = 1 := by
            have hdiv : (86400 * isoWeekStart y w) / 86400 = isoWeekStart y w :=
              Int.mul_ediv_cancel_left _ (by norm_num)
            have hiso := isoWeekOf_isoWeekStart y w hvc.1 hvc.2.1
            have : isoWeekNumOf (isoWeekStart y w) = w :=
              congrArg Prod.snd hiso
            rw [hdiv, this]
            exact hvc.2.2
          refine ⟨fun hlt => absurd hlt (by omega), fun _ => ⟨?_, by simp⟩,
            ?_, ?_⟩
          · refine ⟨rfl, ?_, ?_⟩
            · show 86400 * isoWeekStart y w <
                86400 * isoWeekStart (nextPulseToIsoWeek y w).1
                  (nextPulseToIsoWeek y w).2
              omega
            · by_cases he : endI < 86400 * isoWeekStart (nextPulseToIsoWeek y w).1
                  (nextPulseToIsoWeek y w).2
              · rw [ih1 he]
                trivial
              · exact (ih2 (by omega)).1
          · intro v hv
            rcases List.mem_cons.mp hv with hv | hv
            · subst hv
              refine ⟨?_, ?_, hodd⟩
              · show 86400 * isoWeekStart y w ≤ endI
                omega
              · show 86400 * isoWeekStart y w <
                  86400 * isoWeekStart (nextPulseToIsoWeek y w).1
                    (nextPulseToIsoWeek y w).2
                omega
            · exact ih3 v hv
          · rw [chainEnd_cons]
            exact ih4

/-- The seed of the pulse cursor: collapsing the ISO week of the start day
to an odd week never panics, yields a valid cursor, and places the first
window start at most 13 days before the start day. -/
theorem seed_spec (z : Int) :
    ∃ w, isoWeekToPulseStart (isoWeekNumOf z) = some w ∧
      validCursor (isoYearOf z) w ∧
      isoWeekStart (isoYearOf z) w ≤ z ∧ z - 13 ≤ isoWeekStart (isoYearOf z) w := by
  obtain ⟨hmon, h1, h2⟩ := isoWeekOf_self z
  have hthu := thuOf_bounds z
  have hws : isoWeekStart (isoYearOf z) (isoWeekNumOf z) =
      week1Monday (isoYearOf z) + 7 * (isoWeekNumOf z - 1) := rfl
  simp only [isoWeekToPulseStart]
  by_cases hpar : isoWeekNumOf z % 2 = 0
  · rw [if_pos hpar, if_neg (by omega)]
    refine ⟨isoWeekNumOf z - 1, rfl, ⟨by omega, by omega, by omega⟩, ?_, ?_⟩
    · have : isoWeekStart (isoYearOf z) (isoWeekNumOf z - 1) =
          week1Monday (isoYearOf z) + 7 * (isoWeekNumOf z - 1 - 1) := rfl
      omega
    · have : isoWeekStart (isoYearOf z) (isoWeekNumOf z - 1) =
          week1Monday (isoYearOf z) + 7 * (isoWeekNumOf z - 1 - 1) := rfl
      omega
  · rw [if_neg hpar, if_neg (by omega)]
    exact ⟨isoWeekNumOf z, rfl, ⟨by omega, by omega, by omega⟩, by omega, by omega⟩

/-- With enough fuel and well-formed pulls, the `getPulses` loop always
reaches its break condition: each iteration advances the window start by at
least `604800` seconds. -/
theorem getPulsesLoop_total (cfg : Config) (users : List (String × User))
    (pulls : List PrEntry) (endI : Int)
    (hax : ∀ p ∈ pulls, wfPull p = true) :
    ∀ (fuel : Nat) (y w : Int), validCursor y w → 1 ≤ (fuel : Int) →
      endI - 86400 * isoWeekStart y w < 604800 * ((fuel : Int) - 1) →
      ∃ ws, getPulsesLoop cfg users pulls endI fuel y w = some ws := by
  intro fuel
  induction fuel with
  | zero =>
    intro y w _ h1 _
    exact absurd h1 (by omega)
  | succ n ih =>
    intro y w hvc _ hbound
    have hnext_vc := nextPulse_valid y w hvc
    have hnext_ge := nextPulse_start_ge y w hvc
    simp only [getPulsesLoop]
    by_cases hbr : endI < 86400 * isoWeekStart y w
    · rw [if_pos hbr]
      exact ⟨[], rfl⟩
    · rw [if_neg hbr]
      have hpp := pulsePulls_eq_filterMap cfg (86400 * isoWeekStart y w)
        (86400 * isoWeekStart (nextPulseToIsoWeek y w).1
          (nextPulseToIsoWeek y w).2) pulls hax
      rw [hpp]
      obtain ⟨rest, hrest⟩ := ih (nextPulseToIsoWeek y w).1
        (nextPulseToIsoWeek y w).2 hnext_vc (by omega) (by omega)
      rw [hrest]
      exact ⟨_, rfl⟩

/-- `getPulses` with the computed fuel succeeds whenever the range is
ordered and the pull list is well-formed. -/
theorem getPulses_total (cfg : Config) (users : List (String × User))
    (pulls : List PrEntry) (startI endI : Int) (hord : startI ≤ endI)
    (hax : ∀ p ∈ pulls, wfPull p = true) :
    ∃ ws, getPulses cfg startI endI pulls users (fuelFor startI endI) = some ws := by
  unfold getPulses
  rw [if_neg (by omega)]
  obtain ⟨w, hsw, hvc, hle, hge⟩ := seed_spec (startI / 86400)
  rw [show (isoWeekOf (startI / 86400)).2 = isoWeekNumOf (startI / 86400) from rfl,
    hsw]
  apply getPulsesLoop_total cfg users pulls endI hax (fuelFor startI endI)
    (isoYearOf (startI / 86400)) w hvc
  · unfold fuelFor
    omega
  · unfold fuelFor
    omega

/-- Combined window-structure lemma for `getPulses`: any successful run
gives a contiguous chain whose base is at or up to 14 days before the start
instant, whose final boundary lies past the end instant, which is non-empty
when the range is ordered, and whose windows all start at odd ISO weeks no
later than the end instant. -/
theorem getPulses_spec (cfg : Config) (users : List (String × User))
    (pulls : List PrEntry) (startI endI : Int) (fuel : Nat) (ws : List Pulse)
    (h : getPulses cfg startI endI pulls users fuel = some ws) :
    ∃ s0, s0 ≤ startI ∧ startI - 14 * 86400 ≤ s0 ∧
      chainFrom s0 ws ∧ endI < chainEnd s0 ws ∧
      (startI ≤ endI → ws ≠ []) ∧
      (∀ v ∈ ws, v.start ≤ endI ∧ v.start < v.endT ∧
        isoWeekNumOf (v.start / 86400) % 2 = 1) := by
  unfold getPulses at h
  by_cases hord : endI < startI
  · rw [if_pos hord] at h
    exact absurd h (by simp)
  · rw [if_neg hord] at h
    obtain ⟨w, hsw, hvc, hle, hge⟩ := seed_spec (startI / 86400)
    rw [show (isoWeekOf (startI / 86400)).2 = isoWeekNumOf (startI / 86400) from rfl,
      hsw] at h
    obtain ⟨l1, l2, l3, l4⟩ := getPulsesLoop_spec cfg users pulls endI fuel
      (isoYearOf (startI / 86400)) w ws hvc h
    refine ⟨86400 * isoWeekStart (isoYearOf (startI / 86400)) w, by omega,
      by omega, ?_, l4, ?_, l3⟩
    · by_cases hse : 86400 * isoWeekStart (isoYearOf (startI / 86400)) w ≤ endI
      · exact (l2 hse).1
      · rw [l1 (by omega)]
        trivial
    · intro hsle
      exact (l2 (by omega)).2

/-- Looking up the key just set finds the value just set. -/
theorem lookupUser_setUser_self (m : List (String × User)) (k : String)
    (v : User) : lookupUser (setUser m k v) k = some v := by
  induction m with
  | nil => simp [setUser, lookupUser]
  | cons kv rest ih =>
    obtain ⟨k1, v1⟩ := kv
    by_cases h : k1 = k
    · subst h
      simp [setUser, lookupUser]
    · simp only [setUser, beq_iff_eq]
      rw [if_neg h]
      simp only [lookupUser, beq_iff_eq]
      rw [if_neg h]
      exact ih

/-- Setting one key leaves the lookup of any other key unchanged. -/
theorem lookupUser_setUser_ne (m : List (String × User)) (k l : String)
    (v : User) (h : l ≠ k) :
    lookupUser (setUser m k v) l = lookupUser m l := by
  induction m with
  | nil =>
    simp only [setUser, lookupUser, beq_iff_eq]
    rw [if_neg (fun he => h he.symm)]
  | cons kv rest ih =>
    obtain ⟨k1, v1⟩ := kv
    by_cases h1 : k1 = k
    · subst h1
      simp only [setUser, beq_self_eq_true, if_true, lookupUser, beq_iff_eq]
      rw [if_neg (fun he => h he.symm), if_neg (fun he => h he.symm)]
    · simp only [setUser, lookupUser, beq_iff_eq]
      rw [if_neg h1]
      simp only [lookupUser, beq_iff_eq]
      by_cases h2 : k1 = l
      · rw [if_pos h2, if_pos h2]
      · rw [if_neg h2, if_neg h2]
        exact ih

/-- A valid record's span end lies between its creation time and `now`. -/
theorem prSpanEnd_valid (now : Int) (r : PrEntry) (h : prTimesValid now r) :
    r.createdAt ≤ prSpanEnd now r ∧ prSpanEnd now r ≤ now := by
  obtain ⟨h1, h2, h3⟩ := h
  unfold prSpanEnd
  cases hm : r.mergedAt with
  | some m => exact h2 m hm
  | none =>
    cases hc : r.closedAt with
    | some c => exact h3 c hc
    | none => exact ⟨h1, le_refl now⟩

/-- The cooldown promotion never moves an end (that is not in the future)
earlier, never past `now`, and fires exactly when the end is within the
cooldown window of `now`. -/
theorem cooldownPromote_spec (cfg : Config) (now e : Int) (h : e ≤ now) :
    e ≤ cooldownPromote cfg now e ∧ cooldownPromote cfg now e ≤ now ∧
    ((cooldownPromote cfg now e = now ∧
        now - e < cfg.cooldown * 30 * 24 * 3600) ∨
      (cooldownPromote cfg now e = e ∧
        ¬(now - e < cfg.cooldown * 30 * 24 * 3600))) := by
  unfold cooldownPromote
  split
  · refine ⟨h, le_refl now, Or.inl ⟨rfl, by omega⟩⟩
  · refine ⟨le_refl e, h, Or.inr ⟨rfl, by omega⟩⟩

/-- Full characterisation of the contributor intervals produced by
`getUsers` on validated input: a login is absent from the map exactly when
it authored no tracked pull; a present interval starts at the minimum
creation time of the login's pulls, ends at or after every per-pull span
end (and the end is either `now` or one of those span ends), and always
satisfies `start ≤ end ≤ now`. -/
theorem getUsers_chars (cfg : Config) (now : Int) (pulls : List PrEntry) :
    (∀ p ∈ pulls, prTimesValid now p) →
    (∀ login, lookupUser (getUsers cfg now pulls) login = none →
        userPrs pulls login = []) ∧
    (∀ login u, lookupUser (getUsers cfg now pulls) login = some u →
      u.start ≤ u.endT ∧ u.endT ≤ now ∧
      (∃ p, p ∈ userPrs pulls login ∧ u.start = p.createdAt) ∧
      (∀ p ∈ userPrs pulls login, u.start ≤ p.createdAt) ∧
      (∀ p ∈ userPrs pulls login, prSpanEnd now p ≤ u.endT) ∧
      (u.endT = now ∨
        ∃ p, p ∈ userPrs pulls login ∧ u.endT = prSpanEnd now p)) := by
  induction pulls using List.reverseRecOn with
  | nil =>
    intro _
    refine ⟨fun login _ => rfl, fun login u h => ?_⟩
    simp [getUsers, lookupUser] at h
  | append_singleton ps r ih =>
    intro hval
    obtain ⟨ih1, ih2⟩ := ih (fun p hp => hval p (List.mem_append_left _ hp))
    have hvr : prTimesValid now r :=
      hval r (List.mem_append_right _ (List.mem_singleton.mpr rfl))
    have hstep : getUsers cfg now (ps ++ [r]) =
        getUsersStep cfg now (getUsers cfg now ps) r := by
      unfold getUsers
      rw [List.foldl_append]
      rfl
    by_cases hskip : skippedLogin r.login = true
    · have hskip2 : (r.login == "") = true ∨
          String.startsWith r.login botLoginStart = true := by
        unfold skippedLogin at hskip
        cases hb : (r.login == "") with
        | true => exact Or.inl rfl
        | false =>
          rw [hb] at hskip
          exact Or.inr (by simpa using hskip)
      have hid : getUsersStep cfg now (getUsers cfg now ps) r =
          getUsers cfg now ps := by
        unfold getUsersStep
        rcases hskip2 with h1 | h1
        · rw [if_pos h1]
        · by_cases h0 : (r.login == "") = true
          · rw [if_pos h0]
          · rw [if_neg h0, if_pos h1]
      have huPrs : ∀ login, userPrs (ps ++ [r]) login = userPrs ps login := by
        intro login
        unfold userPrs
        rw [List.filter_append]
        simp [hskip]
      rw [hstep, hid]
      refine ⟨fun login h => ?_, fun login u h => ?_⟩
      · rw [huPrs]
        exact ih1 login h
      · rw [huPrs]
        exact ih2 login u h
    · have hne : skippedLogin r.login = false := by
        simpa using hskip
      obtain ⟨hne1, hne2⟩ :
          (r.login == "") = false ∧
          (String.startsWith r.login botLoginStart) = false := by
        unfold skippedLogin at hne
        exact Bool.or_eq_false_iff.mp hne
      have hkeep : userPrs (ps ++ [r]) r.login = userPrs ps r.login ++ [r] := by
        unfold userPrs
        rw [List.filter_append]
        simp [skippedLogin, hne1, hne2]
      have hdrop : ∀ login, login ≠ r.login →
          userPrs (ps ++ [r]) login = userPrs ps login := by
        intro login hl
        have hrl : (r.login == login) = false :=
          beq_eq_false_iff_ne.mpr (fun he => hl he.symm)
        unfold userPrs
        rw [List.filter_append]
        simp [hrl]
      rw [hstep]
      cases hprior : lookupUser (getUsers cfg now ps) r.login with
      | none =>
        have hps0 : userPrs ps r.login = [] := ih1 r.login hprior
        have hstep3 : getUsersStep cfg now (getUsers cfg now ps) r =
            setUser (getUsers cfg now ps) r.login
              ⟨r.createdAt, cooldownPromote cfg now (prSpanEnd now r)⟩ := by
          unfold getUsersStep
          rw [if_neg (by simp [hne1]), if_neg (by simp [hne2]), hprior]
        rw [hstep3]
        obtain ⟨hsp1, hsp2⟩ := prSpanEnd_valid now r hvr
        obtain ⟨hcp1, hcp2, hcp3⟩ :=
          cooldownPromote_spec cfg now (prSpanEnd now r) hsp2
        refine ⟨fun login h => ?_, fun login u h => ?_⟩
        · by_cases hl : login = r.login
          · subst hl
            rw [lookupUser_setUser_self] at h
            exact absurd h (by simp)
          · rw [lookupUser_setUser_ne _ _ _ _ hl] at h
            rw [hdrop login hl]
            exact ih1 login h
        · by_cases hl : login = r.login
          · subst hl
            rw [lookupUser_setUser_self] at h
            obtain rfl :
                (⟨r.createdAt, cooldownPromote cfg now (prSpanEnd now r)⟩ :
                  User) = u := Option.some.inj h
            rw [hkeep, hps0]
            simp only [List.nil_append]
            refine ⟨le_trans hsp1 hcp1, hcp2,
              ⟨r, List.mem_singleton.mpr rfl, rfl⟩,
              ?_, ?_, ?_⟩
            · intro p hp
              rw [List.mem_singleton.mp hp]
            · intro p hp
              rw [List.mem_singleton.mp hp]
              exact hcp1
            · rcases hcp3 with ⟨he, _⟩ | ⟨he, _⟩
              · exact Or.inl he
              · exact Or.inr ⟨r, List.mem_singleton.mpr rfl, he⟩
          · rw [lookupUser_setUser_ne _ _ _ _ hl] at h
            rw [hdrop login hl]
            exact ih2 login u h
      | some val =>
        obtain ⟨hv1, hv2, ⟨p0, hp0m, hp0e⟩, hvmin, hvmax, hvor⟩ :=
          ih2 r.login val hprior
        obtain ⟨hsp1, hsp2⟩ := prSpanEnd_valid now r hvr
        have hst1 : (if val.start < r.createdAt then val.start
            else r.createdAt) = min val.start r.createdAt := by
          split <;> omega
        have hst2 : (if prSpanEnd now r < val.endT then val.endT
            else prSpanEnd now r) = max val.endT (prSpanEnd now r) := by
          split <;> omega
        have hstep3 : getUsersStep cfg now (getUsers cfg now ps) r =
            setUser (getUsers cfg now ps) r.login
              ⟨min val.start r.createdAt,
               cooldownPromote cfg now (max val.endT (prSpanEnd now r))⟩ := by
          unfold getUsersStep
          rw [if_neg (by simp [hne1]), if_neg (by simp [hne2]), hprior]
          simp only [hst1, hst2]
        rw [hstep3]
        have hmin1 : min val.start r.createdAt ≤ val.start := min_le_left _ _
        have hmin2 : min val.start r.createdAt ≤ r.createdAt := min_le_right _ _
        have hminc := min_choice val.start r.createdAt
        have hmax1 : val.endT ≤ max val.endT (prSpanEnd now r) := le_max_left _ _
        have hmax2 : prSpanEnd now r ≤ max val.endT (prSpanEnd now r) :=
          le_max_right _ _
        have hmaxc := max_choice val.endT (prSpanEnd now r)
        have hmaxle : max val.endT (prSpanEnd now r) ≤ now := by omega
        obtain ⟨hcp1, hcp2, hcp3⟩ :=
          cooldownPromote_spec cfg now (max val.endT (prSpanEnd now r)) hmaxle
        refine ⟨fun login h => ?_, fun login u h => ?_⟩
        · by_cases hl : login = r.login
          · subst hl
            rw [lookupUser_setUser_self] at h
            exact absurd h (by simp)
          · rw [lookupUser_setUser_ne _ _ _ _ hl] at h
            rw [hdrop login hl]
            exact ih1 login h
        · by_cases hl : login = r.login
          · subst hl
            rw [lookupUser_setUser_self] at h
            obtain rfl :
                (⟨min val.start r.createdAt,
                  cooldownPromote cfg now (max val.endT (prSpanEnd now r))⟩ :
                  User) = u := Option.some.inj h
            rw [hkeep]
            simp only
            refine ⟨by omega, by omega, ?_, ?_, ?_, ?_⟩
            · rcases hminc with hm | hm
              · exact ⟨p0, List.mem_append_left _ hp0m, by omega⟩
              · exact ⟨r, List.mem_append_right _ (List.mem_singleton.mpr rfl),
                  by omega⟩
            · intro p hp
              rcases List.mem_append.mp hp with hp | hp
              · have := hvmin p hp
                omega
              · rw [List.mem_singleton.mp hp]
                omega
            · intro p hp
              rcases List.mem_append.mp hp with hp | hp
              · have := hvmax p hp
                omega
              · rw [List.mem_singleton.mp hp]
                omega
            · rcases hcp3 with ⟨he, _⟩ | ⟨he, _⟩
              · exact Or.inl (by simpa using he)
              · rcases hmaxc with hm | hm
                · rcases hvor with hnow | ⟨p1, hp1m, hp1e⟩
                  · exact Or.inl (by omega)
                  · exact Or.inr ⟨p1, List.mem_append_left _ hp1m, by omega⟩
                · exact Or.inr ⟨r,
                    List.mem_append_right _ (List.mem_singleton.mpr rfl),
                    by omega⟩
          · rw [lookupUser_setUser_ne _ _ _ _ hl] at h
            rw [hdrop login hl]
            exact ih2 login u h

/-- The head of a chain starts at the chain's base. -/
theorem chainFrom_head (s : Int) (ws : List Pulse) (w0 : Pulse)
    (hc : chainFrom s ws) (hh : ws.head? = some w0) : w0.start = s := by
  cases ws with
  | nil => simp at hh
  | cons p rest =>
    obtain ⟨hs, _, _⟩ := hc
    simp only [List.head?_cons, Option.some.injEq] at hh
    rw [← hh]
    exact hs

/-- The final boundary of a non-empty chain is the end of its last
window. -/
theorem chainEnd_getLast (s : Int) (ws : List Pulse) (wl : Pulse)
    (hl : ws.getLast? = some wl) : chainEnd s ws = wl.endT := by
  unfold chainEnd
  rw [hl]
  rfl

/-- An empty allowlist admits every login. -/
theorem allowlistedUser_nil (cfg : Config) (hnil : cfg.allowlist = [])
    (login : String) : allowlistedUser cfg login = true := by
  unfold allowlistedUser
  rw [hnil]
  rfl

/-- The allowlist check is the only use `pulsePulls` makes of its config:
filtering the input down to allowlisted authors first and then running with
any allow-all (empty-allowlist) config gives the same result, panics
included. -/
theorem pulsePulls_allowlist_filter (cfg cfg2 : Config)
    (hnil : cfg2.allowlist = []) (s e : Int) :
    ∀ pulls, pulsePulls cfg pulls s e =
      pulsePulls cfg2 (pulls.filter (fun p => allowlistedUser cfg p.login)) s e := by
  intro pulls
  induction pulls with
  | nil => rfl
  | cons p ps ih =>
    rw [List.filter_cons]
    by_cases ha : allowlistedUser cfg p.login = false
    · rw [if_neg (by simp [ha])]
      simp only [pulsePulls]
      rw [if_pos ha]
      exact ih
    · rw [if_pos (by simpa using ha)]
      simp only [pulsePulls]
      rw [if_neg ha,
        if_neg (show ¬(allowlistedUser cfg2 p.login = false) from by
          simp [allowlistedUser_nil cfg2 hnil]),
        ih]

/-- The allowlist check is also the only use `pulseContributors` makes of
its config: counting with the allowlist equals counting the pre-filtered
user map with an allow-all config. -/
theorem pulseContributors_allowlist_filter (cfg cfg2 : Config)
    (hnil : cfg2.allowlist = []) (s e : Int)
    (users : List (String × User)) :
    pulseContributors cfg users s e =
      pulseContributors cfg2
        (users.filter (fun kv => allowlistedUser cfg kv.1)) s e := by
  unfold pulseContributors
  suffices h : ∀ (l : List (String × User)) (acc : Int),
      l.foldl (fun contributors kv =>
        if allowlistedUser cfg kv.1 = false then contributors
        else if kv.2.start < e ∧ ¬(kv.2.endT < s) then contributors + 1
        else contributors) acc =
      (l.filter (fun kv => allowlistedUser cfg kv.1)).foldl
        (fun contributors kv =>
          if allowlistedUser cfg2 kv.1 = false then contributors
          else if kv.2.start < e ∧ ¬(kv.2.endT < s) then contributors + 1
          else contributors) acc from h users 0
  intro l
  induction l with
  | nil => intro acc; rfl
  | cons kv rest ih =>
    intro acc
    rw [List.filter_cons, List.foldl_cons]
    by_cases ha : allowlistedUser cfg kv.1 = false
    · rw [if_pos ha,
        if_neg (show ¬(allowlistedUser cfg kv.1 = true) from by simp [ha])]
      exact ih acc
    · have ht : allowlistedUser cfg kv.1 = true := by simpa using ha
      rw [if_neg ha, if_pos ht, List.foldl_cons,
        if_neg (show ¬(allowlistedUser cfg2 kv.1 = false) from by
          simp [allowlistedUser_nil cfg2 hnil])]
      exact ih _

/-- A pull with a skipped (empty or bot-like) author login leaves the
contributor map unchanged. -/
theorem getUsersStep_skipped (cfg : Config) (now : Int)
    (m : List (String × User)) (r : PrEntry)
    (hs : skippedLogin r.login = true) :
    getUsersStep cfg now m r = m := by
  unfold getUsersStep
  unfold skippedLogin at hs
  by_cases h0 : (r.login == "") = true
  · rw [if_pos h0]
  · have h1 : String.startsWith r.login botLoginStart = true := by
      cases hb : (r.login == "") with
      | true => exact absurd hb h0
      | false =>
        rw [hb] at hs
        simpa using hs
    rw [if_neg h0, if_pos h1]

/-- Pulls with skipped author logins play no part in `getUsers`: the map of
the full list equals the map of the list with those pulls removed. -/
theorem getUsers_skip_filter (cfg : Config) (now : Int) :
    ∀ (pulls : List PrEntry) (m : List (String × User)),
      pulls.foldl (getUsersStep cfg now) m =
        (pulls.filter (fun p => !skippedLogin p.login)).foldl
          (getUsersStep cfg now) m := by
  intro pulls
  induction pulls with
  | nil => intro m; rfl
  | cons p ps ih =>
    intro m
    rw [List.filter_cons, List.foldl_cons]
    by_cases hs : skippedLogin p.login = true
    · rw [getUsersStep_skipped cfg now m p hs]
      have hneg : (!skippedLogin p.login) = false := by simp [hs]
      rw [hneg]
      simp only [Bool.false_eq_true, if_false]
      exact ih m
    · have hpos : (!skippedLogin p.login) = true := by
        simp only [Bool.not_eq_true'] at *
        simpa using hs
      rw [if_pos hpos, List.foldl_cons]
      exact ih (getUsersStep cfg now m p)

/-- With an empty allowlist the per-pull classification does not depend on
the author at all. -/
theorem classifyPull_nil (cfg : Config) (hnil : cfg.allowlist = [])
    (s e : Int) (p : PrEntry) :
    classifyPull cfg s e p = classifyPullNoAllow s e p := by
  unfold classifyPull classifyPullNoAllow
  rw [if_neg (by simp [allowlistedUser_nil cfg hnil])]

/-- Classification of a well-formed terminal pull by an admitted author:
it is classified for the window exactly when its close time falls in
`[s, e)`, and then as merged or churned by the presence of the merge
timestamp. -/
theorem classifyPull_terminal (cfg : Config) (s e : Int) (p : PrEntry)
    (c : Int) (hstate : p.state ≠ "OPEN") (hclosed : p.closedAt = some c)
    (horder : p.createdAt ≤ c) (hallow : allowlistedUser cfg p.login = true) :
    classifyPull cfg s e p =
      if s ≤ c ∧ c < e then
        some ⟨p.mergedAt.isSome, !p.mergedAt.isSome, false,
              p.additions + p.deletions⟩
      else none := by
  unfold classifyPull
  rw [if_neg (by simp [hallow])]
  simp only [hclosed]
  by_cases h1 : c < s
  · have hno : ¬(s ≤ c ∧ c < e) := by omega
    simp [h1, hno]
  · by_cases h2 : p.createdAt < e
    · by_cases h3 : c < e
      · have hyes : s ≤ c ∧ c < e := by omega
        simp [h1, h2, h3, hstate, hyes]
      · have hno : ¬(s ≤ c ∧ c < e) := by omega
        simp [h1, h2, h3, hstate, hno]
    · have h3 : ¬(c < e) := by omega
      have hno : ¬(s ≤ c ∧ c < e) := by omega
      simp [h1, h2, hno]

/-- Classification of an open pull (no close time) by an admitted author:
it is classified as open for every window it was created strictly
before the end of. -/
theorem classifyPull_open (cfg : Config) (s e : Int) (p : PrEntry)
    (hstate : p.state = "OPEN") (hclosed : p.closedAt = none)
    (hallow : allowlistedUser cfg p.login = true) :
    classifyPull cfg s e p =
      if p.createdAt < e then
        some ⟨false, false, true, p.additions + p.deletions⟩
      else none := by
  unfold classifyPull
  rw [if_neg (by simp [hallow])]
  simp only [hclosed]
  by_cases h2 : p.createdAt < e
  · simp [h2, hstate]
  · simp [h2]

/-- The cast of the per-pull weight agrees with the spec's tier table
whenever the thresholds are ordered. -/
theorem weight_eq (cfg : Config) (h : cfg.prLow ≤ cfg.prHigh) (lines : Int) :
    prSizeWeight cfg (lines : Rat) = sizeWeightSpec cfg lines := by
  unfold prSizeWeight sizeWeightSpec
  have e1 : ((cfg.prHigh : Rat) < (lines : Rat)) ↔ cfg.prHigh < lines :=
    Int.cast_lt
  have e2 : ((cfg.prLow : Rat) < (lines : Rat)) ↔ cfg.prLow < lines :=
    Int.cast_lt
  by_cases h1 : lines ≤ cfg.prLow
  · rw [if_neg (by rw [gt_iff_lt, e1]; omega),
      if_neg (by rw [gt_iff_lt, e2]; omega), if_pos h1]
  · by_cases h2 : lines ≤ cfg.prHigh
    · rw [if_neg (by rw [gt_iff_lt, e1]; omega),
        if_pos (by rw [gt_iff_lt, e2]; omega), if_neg h1, if_pos h2]
    · rw [if_pos (by rw [gt_iff_lt, e1]; omega), if_neg h1, if_neg h2]

/-- The weight accumulator of `getOpenNorm` is the sum of the weights of
the open pulls. -/
theorem getOpenNorm_sum (cfg : Config) :
    ∀ (pulls : List Pull) (c0 : Rat),
      pulls.foldl (fun count p =>
        if p.isOpen = true then count + prSizeWeight cfg (p.lines : Rat)
        else count) c0 =
      c0 + ((pulls.filter (fun p => p.isOpen)).map
        (fun p => prSizeWeight cfg (p.lines : Rat))).sum := by
  intro pulls
  induction pulls with
  | nil => intro c0; simp
  | cons p ps ih =>
    intro c0
    rw [List.foldl_cons, List.filter_cons]
    by_cases h : p.isOpen = true
    · rw [if_pos h, if_pos h, ih, List.map_cons, List.sum_cons]
      ring
    · rw [if_neg h, if_neg h, ih]

/-- The weight accumulator of `getMergedNorm` is the sum of the weights of
the merged pulls. -/
theorem getMergedNorm_sum (cfg : Config) :
    ∀ (pulls : List Pull) (c0 : Rat),
      pulls.foldl (fun count p =>
        if p.merged = true then count + prSizeWeight cfg (p.lines : Rat)
        else count) c0 =
      c0 + ((pulls.filter (fun p => p.merged)).map
        (fun p => prSizeWeight cfg (p.lines : Rat))).sum := by
  intro pulls
  induction pulls with
  | nil => intro c0; simp
  | cons p ps ih =>
    intro c0
    rw [List.foldl_cons, List.filter_cons]
    by_cases h : p.merged = true
    · rw [if_pos h, if_pos h, ih, List.map_cons, List.sum_cons]
      ring
    · rw [if_neg h, if_neg h, ih]

/-! ### The claims -/

/-- C1 (counterexample): it is not true that the classified pull set is
unchanged when the allowlist excludes the author — with allowlist
`[alice]`, a pull authored by `bob` disappears from the `pulsePulls`
output, while with an empty allowlist it is classified. -/
theorem claim1_counterexample :
    pulsePulls ⟨1, ["alice"], 500, 50⟩ [wPrOpen] 0 (86400 * 18659) ≠
      pulsePulls wCfg [wPrOpen] 0 (86400 * 18659) := by
  decide

/-- C1 (amended): a login absent from a configured non-empty allowlist is
excluded from contributor counting AND from pull classification: both
`pulsePulls` and `pulseContributors` behave exactly like an allow-all run
on the input restricted to allowlisted authors, so the raw and normalized
window metrics change too — not only the contributor count. -/
theorem claim1_amended (cfg : Config) (users : List (String × User))
    (pulls : List PrEntry) (s e : Int) :
    pulsePulls cfg pulls s e =
      pulsePulls ⟨cfg.cooldown, [], cfg.prHigh, cfg.prLow⟩
        (pulls.filter (fun p => allowlistedUser cfg p.login)) s e ∧
    pulseContributors cfg users s e =
      pulseContributors ⟨cfg.cooldown, [], cfg.prHigh, cfg.prLow⟩
        (users.filter (fun kv => allowlistedUser cfg kv.1)) s e :=
  ⟨pulsePulls_allowlist_filter cfg _ rfl s e pulls,
   pulseContributors_allowlist_filter cfg _ rfl s e users⟩

/-- C2: the current `isoWeeks` returns the ISO week number of December 28,
which is the number of ISO weeks in the ISO year (always 52 or 53), and
`nextPulseToIsoWeek` rolls over to week 1 of the next year exactly when
`week + 2` exceeds that count.  The superseded first-revision variant
(December 31) violates this: for 2024 it returns 1, because 2024-12-31
falls in ISO week 1 of 2025. -/
theorem claim2_isoWeeks :
    (∀ year : Int,
      isoWeeks year = (isoWeekOf (daysFromCivil year 12 28)).2 ∧
      isoWeeks year = numISOWeeksSpec year ∧
      (isoWeeks year = 52 ∨ isoWeeks year = 53) ∧
      (∀ week : Int,
        (isoWeeks year < week + 2 →
          nextPulseToIsoWeek year week = (year + 1, 1)) ∧
        (week + 2 ≤ isoWeeks year →
          nextPulseToIsoWeek year week = (year, week + 2)))) ∧
    isoWeeksV1 2024 = 1 ∧ isoWeeks 2024 = 52 := by
  refine ⟨fun year => ⟨rfl, isoWeeks_eq_spec year, isoWeeks_52_or_53 year,
    fun week => ⟨fun h => ?_, fun h => ?_⟩⟩, by decide, by decide⟩
  · unfold nextPulseToIsoWeek
    rw [if_pos h]
  · unfold nextPulseToIsoWeek
    rw [if_neg (by omega)]

/-- C2 witness: 2020 has 53 ISO weeks; the cursor rolls over from week 53
of 2020 to week 1 of 2021 and advances normally otherwise. -/
theorem claim2_witness :
    (isoWeeks 2020 < 53 + 2 ∧ nextPulseToIsoWeek 2020 53 = (2021, 1)) ∧
    (49 + 2 ≤ isoWeeks 2020 ∧ nextPulseToIsoWeek 2020 49 = (2020, 51)) :=
  ⟨⟨by decide, ((claim2_isoWeeks.1 2020).2.2.2 53).1 (by decide)⟩,
   ⟨by decide, ((claim2_isoWeeks.1 2020).2.2.2 49).2 (by decide)⟩⟩

/-- C3: every window list produced by `getPulses` is contiguous and
non-overlapping (each window closes where the next opens, with positive
width), and every window starts on an odd ISO week number — across 52- and
53-week year boundaries alike. -/
theorem claim3_windows (cfg : Config) (users : List (String × User))
    (pulls : List PrEntry) (startI endI : Int) (fuel : Nat) (ws : List Pulse)
    (hord : startI ≤ endI)
    (hws : getPulses cfg startI endI pulls users fuel = some ws) :
    pulseChain ws = true ∧
    ∀ w ∈ ws, (isoWeekOf (w.start / 86400)).2 % 2 = 1 := by
  obtain ⟨s0, _, _, hchain, _, _, hall⟩ :=
    getPulses_spec cfg users pulls startI endI fuel ws hws
  exact ⟨chainFrom_pulseChain ws s0 hchain, fun w hw => (hall w hw).2.2⟩

/-- C3 witness: a concrete run across the 2020 → 2021 boundary (ISO year
2020 has 53 weeks); the four windows start on weeks 51 and 53 of 2020 and
weeks 1 and 3 of 2021, the middle window lasting 7 days. -/
theorem claim3_witness :
    (wStart ≤ wEnd ∧ getPulses wCfg wStart wEnd [] [] 8 = some wPulses0) ∧
    pulseChain wPulses0 = true ∧
    (∀ w ∈ wPulses0, (isoWeekOf (w.start / 86400)).2 % 2 = 1) :=
  ⟨⟨by decide, by rfl⟩,
   claim3_windows wCfg [] [] wStart wEnd 8 wPulses0 (by decide) (by rfl)⟩

/-- C4: the two normalization formulas of the source history are not
numerically equivalent: two merged pulls of 10 and 100 lines with one
contributor give `2 · weight(55) / 1 = 4` under the old
average-size-times-count aggregation but `(1 + 2) / 1 = 3` under the
current sum-of-per-pull-weights aggregation. -/
theorem claim4_norm_formulas :
    ∃ (pulls : List Pull) (con : Int), 0 < con ∧
      getMergedV1 pulls true con ≠ getMergedNorm wCfg pulls con := by
  refine ⟨[⟨true, false, false, 10⟩, ⟨true, false, false, 100⟩], 1,
    one_pos, ?_⟩
  simp [getMergedV1, getMergedNorm, prSizeWeightV1, prSizeWeight, wCfg]
  norm_num

/-- C5: for a well-formed terminal pull by an admitted author and any
window list produced by `getPulses`, the pull is classified in a window
exactly when its close time lies in `[start, end)`; the windows are
pairwise disjoint so this happens in at most one window (exactly one when
the close time lies within the scanned span), and the classification is
merged precisely when the merge timestamp is present, churned otherwise. -/
theorem claim5_terminal (cfg : Config) (users : List (String × User))
    (pulls : List PrEntry) (startI endI : Int) (fuel : Nat) (ws : List Pulse)
    (p : PrEntry) (c : Int)
    (hws : getPulses cfg startI endI pulls users fuel = some ws)
    (hwf : ∀ q ∈ pulls, wfPull q = true)
    (hstate : p.state ≠ "OPEN") (hclosed : p.closedAt = some c)
    (horder : p.createdAt ≤ c)
    (hallow : allowlistedUser cfg p.login = true) :
    (∀ w ∈ ws, pulsePulls cfg pulls w.start w.endT =
        some (pulls.filterMap (classifyPull cfg w.start w.endT))) ∧
    (∀ w ∈ ws, ((classifyPull cfg w.start w.endT p).isSome ↔
        (w.start ≤ c ∧ c < w.endT))) ∧
    (ws.filter (fun w => decide (w.start ≤ c ∧ c < w.endT))).length ≤ 1 ∧
    (∀ w ∈ ws, ∀ pu, classifyPull cfg w.start w.endT p = some pu →
      pu = ⟨p.mergedAt.isSome, !p.mergedAt.isSome, false,
            p.additions + p.deletions⟩) ∧
    (∀ w0 wl, ws.head? = some w0 → ws.getLast? = some wl →
      w0.start ≤ c → c < wl.endT →
      (ws.filter (fun w => decide (w.start ≤ c ∧ c < w.endT))).length = 1) := by
  obtain ⟨s0, hs0a, hs0b, hchain, hend, hne, hall⟩ :=
    getPulses_spec cfg users pulls startI endI fuel ws hws
  have hc := chainFrom_count c ws s0 hchain
  refine ⟨fun w _ => pulsePulls_eq_filterMap cfg w.start w.endT pulls hwf,
    fun w hw => ?_, ?_, fun w hw pu hpu => ?_,
    fun w0 wl hh hl h1 h2 => ?_⟩
  · rw [classifyPull_terminal cfg w.start w.endT p c hstate hclosed horder
      hallow]
    by_cases hcin : w.start ≤ c ∧ c < w.endT
    · simp [hcin]
    · simp [hcin]
  · rw [hc]
    split
    · omega
    · omega
  · rw [classifyPull_terminal cfg w.start w.endT p c hstate hclosed horder
      hallow] at hpu
    by_cases hcin : w.start ≤ c ∧ c < w.endT
    · rw [if_pos hcin] at hpu
      exact (Option.some.inj hpu).symm
    · rw [if_neg hcin] at hpu
      exact absurd hpu (by simp)
  · have hw0 : w0.start = s0 := chainFrom_head s0 ws w0 hchain hh
    have hwl : chainEnd s0 ws = wl.endT := chainEnd_getLast s0 ws wl hl
    rw [hc, if_pos (by omega)]

/-- C5 witness: the merged pull `wPrMerged` closes on 2020-12-29, inside
the second of the four witness windows, and is classified there and only
there, as merged. -/
theorem claim5_witness :
    (getPulses wCfg wStart wEnd [wPrMerged] [] 8 = some wPulsesM ∧
      (∀ q ∈ [wPrMerged], wfPull q = true) ∧
      wPrMerged.state ≠ "OPEN" ∧
      wPrMerged.closedAt = some (86400 * 18625) ∧
      wPrMerged.createdAt ≤ 86400 * 18625 ∧
      allowlistedUser wCfg wPrMerged.login = true) ∧
    ((∀ w ∈ wPulsesM, pulsePulls wCfg [wPrMerged] w.start w.endT =
        some ([wPrMerged].filterMap (classifyPull wCfg w.start w.endT))) ∧
      (∀ w ∈ wPulsesM,
        ((classifyPull wCfg w.start w.endT wPrMerged).isSome ↔
          (w.start ≤ 86400 * 18625 ∧ 86400 * 18625 < w.endT))) ∧
      (wPulsesM.filter (fun w =>
        decide (w.start ≤ 86400 * 18625 ∧ 86400 * 18625 < w.endT))).length ≤ 1 ∧
      (∀ w ∈ wPulsesM, ∀ pu,
        classifyPull wCfg w.start w.endT wPrMerged = some pu →
        pu = ⟨wPrMerged.mergedAt.isSome, !wPrMerged.mergedAt.isSome, false,
              wPrMerged.additions + wPrMerged.deletions⟩) ∧
      (∀ w0 wl, wPulsesM.head? = some w0 → wPulsesM.getLast? = some wl →
        w0.start ≤ 86400 * 18625 → 86400 * 18625 < wl.endT →
        (wPulsesM.filter (fun w =>
          decide (w.start ≤ 86400 * 18625 ∧
            86400 * 18625 < w.endT))).length = 1)) :=
  ⟨⟨by with_unfolding_all rfl, by decide, by decide, by rfl, by decide,
    by decide⟩,
   claim5_terminal wCfg [] [wPrMerged] wStart wEnd 8 wPulsesM wPrMerged
     (86400 * 18625) (by with_unfolding_all rfl) (by decide) (by decide)
     (by rfl) (by decide) (by decide)⟩

/-- C6: the normalized open and merged values are the sum of the per-pull
spec weights (1 up to `low` lines, 2 up to `high`, 3 above, with strict
comparisons at both boundaries) over the category, divided by the
contributor count — and 0 whenever that count is 0, for any pull list. -/
theorem claim6_normalized (cfg : Config) (pulls : List Pull) (con : Int)
    (h : cfg.prLow ≤ cfg.prHigh) :
    getOpenNorm cfg pulls con =
      (if con = 0 then 0 else
        (((pulls.filter (fun p => p.isOpen)).map
          (fun p => sizeWeightSpec cfg p.lines)).sum) / (con : Rat)) ∧
    getMergedNorm cfg pulls con =
      (if con = 0 then 0 else
        (((pulls.filter (fun p => p.merged)).map
          (fun p => sizeWeightSpec cfg p.lines)).sum) / (con : Rat)) := by
  have hmap : ∀ l : List Pull,
      l.map (fun p => prSizeWeight cfg (p.lines : Rat)) =
        l.map (fun p => sizeWeightSpec cfg p.lines) := by
    intro l
    induction l with
    | nil => rfl
    | cons q qs ih => rw [List.map_cons, List.map_cons, weight_eq cfg h, ih]
  constructor
  · simp only [getOpenNorm]
    rw [getOpenNorm_sum cfg pulls 0, hmap, zero_add]
  · simp only [getMergedNorm]
    rw [getMergedNorm_sum cfg pulls 0, hmap, zero_add]

/-- C6 witness: one open pull of 60 lines with two contributors has
normalized open value `2 / 2 = 1` and normalized merged value 0. -/
theorem claim6_witness :
    wCfg.prLow ≤ wCfg.prHigh ∧
    (getOpenNorm wCfg [⟨false, false, true, 60⟩] 2 =
      (if (2 : Int) = 0 then 0 else
        ((([(⟨false, false, true, 60⟩ : Pull)].filter
            (fun p => p.isOpen)).map
          (fun p => sizeWeightSpec wCfg p.lines)).sum) / ((2 : Int) : Rat)) ∧
     getMergedNorm wCfg [⟨false, false, true, 60⟩] 2 =
      (if (2 : Int) = 0 then 0 else
        ((([(⟨false, false, true, 60⟩ : Pull)].filter
            (fun p => p.merged)).map
          (fun p => sizeWeightSpec wCfg p.lines)).sum) / ((2 : Int) : Rat))) :=
  ⟨by decide, claim6_normalized wCfg [⟨false, false, true, 60⟩] 2 (by decide)⟩

/-- C7: an open pull (no close time) by an admitted author is classified as
open in exactly the windows whose end lies strictly after its creation
time — one count per window it spans, not one count overall — so the
number of windows counting it equals the number of generated windows
ending after its creation. -/
theorem claim7_open_prs (cfg : Config) (users : List (String × User))
    (pulls : List PrEntry) (startI endI : Int) (fuel : Nat) (ws : List Pulse)
    (p : PrEntry)
    (hws : getPulses cfg startI endI pulls users fuel = some ws)
    (hwf : ∀ q ∈ pulls, wfPull q = true)
    (hstate : p.state = "OPEN") (hclosed : p.closedAt = none)
    (hallow : allowlistedUser cfg p.login = true) :
    (∀ w ∈ ws, pulsePulls cfg pulls w.start w.endT =
        some (pulls.filterMap (classifyPull cfg w.start w.endT))) ∧
    (∀ w ∈ ws, classifyPull cfg w.start w.endT p =
      (if p.createdAt < w.endT then
        some ⟨false, false, true, p.additions + p.deletions⟩ else none)) ∧
    ((ws.filter (fun w =>
        (classifyPull cfg w.start w.endT p).isSome)).length =
      (ws.filter (fun w => decide (p.createdAt < w.endT))).length) := by
  have hcl : ∀ w : Pulse, classifyPull cfg w.start w.endT p =
      (if p.createdAt < w.endT then
        some ⟨false, false, true, p.additions + p.deletions⟩ else none) :=
    fun w => classifyPull_open cfg w.start w.endT p hstate hclosed hallow
  refine ⟨fun w _ => pulsePulls_eq_filterMap cfg w.start w.endT pulls hwf,
    fun w _ => hcl w, ?_⟩
  have hfe : ws.filter (fun w => (classifyPull cfg w.start w.endT p).isSome) =
      ws.filter (fun w => decide (p.createdAt < w.endT)) := by
    apply List.filter_congr
    intro w _
    rw [hcl w]
    by_cases hcr : p.createdAt < w.endT
    · simp [hcr]
    · simp [hcr]
  rw [hfe]

/-- C7 witness: the open pull `wPrOpen` (created 2020-12-16) is classified
open in all four witness windows, whose ends all lie after its creation. -/
theorem claim7_witness :
    (getPulses wCfg wStart wEnd [wPrOpen] [] 8 = some wPulsesO ∧
      (∀ q ∈ [wPrOpen], wfPull q = true) ∧
      wPrOpen.state = "OPEN" ∧ wPrOpen.closedAt = none ∧
      allowlistedUser wCfg wPrOpen.login = true) ∧
    ((∀ w ∈ wPulsesO, pulsePulls wCfg [wPrOpen] w.start w.endT =
        some ([wPrOpen].filterMap (classifyPull wCfg w.start w.endT))) ∧
      (∀ w ∈ wPulsesO, classifyPull wCfg w.start w.endT wPrOpen =
        (if wPrOpen.createdAt < w.endT then
          some ⟨false, false, true,
            wPrOpen.additions + wPrOpen.deletions⟩ else none)) ∧
      ((wPulsesO.filter (fun w =>
          (classifyPull wCfg w.start w.endT wPrOpen).isSome)).length =
        (wPulsesO.filter (fun w =>
          decide (wPrOpen.createdAt < w.endT))).length)) :=
  ⟨⟨by with_unfolding_all rfl, by decide, by rfl, by rfl, by decide⟩,
   claim7_open_prs wCfg [] [wPrOpen] wStart wEnd 8 wPulsesO wPrOpen
     (by with_unfolding_all rfl) (by decide) (by rfl) (by rfl) (by decide)⟩

/-- C8: on validated input every contributor interval built by `getUsers`
satisfies `start ≤ end` and `end ≤ now`, with `start` the minimum creation
time of the login's pulls and `end` at or above every per-pull span end
(either `now` or one of those ends); and the cooldown promotion fires
exactly when `now` minus the end is less than `cooldown · 30 · 24` hours,
and then only ever moves the end later (to `now`), never earlier. -/
theorem claim8_intervals (cfg : Config) (now : Int) (pulls : List PrEntry)
    (hval : ∀ p ∈ pulls, prTimesValid now p) :
    (∀ login u, lookupUser (getUsers cfg now pulls) login = some u →
      u.start ≤ u.endT ∧ u.endT ≤ now ∧
      (∃ p, p ∈ userPrs pulls login ∧ u.start = p.createdAt) ∧
      (∀ p ∈ userPrs pulls login, u.start ≤ p.createdAt) ∧
      (∀ p ∈ userPrs pulls login, prSpanEnd now p ≤ u.endT) ∧
      (u.endT = now ∨
        ∃ p, p ∈ userPrs pulls login ∧ u.endT = prSpanEnd now p)) ∧
    (∀ e0 : Int, e0 ≤ now →
      e0 ≤ cooldownPromote cfg now e0 ∧
      ((cooldownPromote cfg now e0 = now ∧
          now - e0 < cfg.cooldown * 30 * 24 * 3600) ∨
        (cooldownPromote cfg now e0 = e0 ∧
          ¬(now - e0 < cfg.cooldown * 30 * 24 * 3600)))) := by
  refine ⟨(getUsers_chars cfg now pulls hval).2, fun e0 he => ?_⟩
  obtain ⟨a, _, b⟩ := cooldownPromote_spec cfg now e0 he
  exact ⟨a, b⟩

/-- C8 witness: a single open pull by `carol` created at time 100 with
`now = 200`. -/
theorem claim8_witness :
    (∀ p ∈ [(⟨1, none, 100, none, 1, "OPEN", "carol"⟩ : PrEntry)],
      prTimesValid 200 p) ∧
    ((∀ login u, lookupUser
        (getUsers wCfg 200 [⟨1, none, 100, none, 1, "OPEN", "carol"⟩])
        login = some u →
      u.start ≤ u.endT ∧ u.endT ≤ 200 ∧
      (∃ p, p ∈ userPrs [⟨1, none, 100, none, 1, "OPEN", "carol"⟩] login ∧
        u.start = p.createdAt) ∧
      (∀ p ∈ userPrs [⟨1, none, 100, none, 1, "OPEN", "carol"⟩] login,
        u.start ≤ p.createdAt) ∧
      (∀ p ∈ userPrs [⟨1, none, 100, none, 1, "OPEN", "carol"⟩] login,
        prSpanEnd 200 p ≤ u.endT) ∧
      (u.endT = 200 ∨
        ∃ p, p ∈ userPrs [⟨1, none, 100, none, 1, "OPEN", "carol"⟩] login ∧
          u.endT = prSpanEnd 200 p)) ∧
    (∀ e0 : Int, e0 ≤ 200 →
      e0 ≤ cooldownPromote wCfg 200 e0 ∧
      ((cooldownPromote wCfg 200 e0 = 200 ∧
          200 - e0 < wCfg.cooldown * 30 * 24 * 3600) ∨
        (cooldownPromote wCfg 200 e0 = e0 ∧
          ¬(200 - e0 < wCfg.cooldown * 30 * 24 * 3600))))) := by
  have hval : ∀ p ∈ [(⟨1, none, 100, none, 1, "OPEN", "carol"⟩ : PrEntry)],
      prTimesValid 200 p := by
    intro p hp
    rw [List.mem_singleton.mp hp]
    refine ⟨by norm_num, by simp, by simp⟩
  exact ⟨hval, claim8_intervals wCfg 200 _ hval⟩

/-- C9: on an ordered range with well-formed pulls, `getPulses` (given the
computed fuel) terminates with a non-empty, contiguous, ordered window
list whose first window starts at or before the start instant; every
window starts at or before the end instant, and the loop stops exactly
when the next window start (the last window's end) passes the end
instant — so the final window's end always lies strictly past it. -/
theorem claim9_termination (cfg : Config) (users : List (String × User))
    (pulls : List PrEntry) (startI endI : Int)
    (hord : startI ≤ endI) (hwf : ∀ p ∈ pulls, wfPull p = true) :
    ∃ ws w0 wl,
      getPulses cfg startI endI pulls users (fuelFor startI endI) = some ws ∧
      ws.head? = some w0 ∧ ws.getLast? = some wl ∧
      w0.start ≤ startI ∧ endI < wl.endT ∧
      (∀ w ∈ ws, w.start ≤ endI) ∧ pulseChain ws = true := by
  obtain ⟨ws, hws⟩ := getPulses_total cfg users pulls startI endI hord hwf
  obtain ⟨s0, hs0a, _, hchain, hend, hne2, hall⟩ :=
    getPulses_spec cfg users pulls startI endI _ ws hws
  have hne3 : ws ≠ [] := hne2 hord
  obtain ⟨w0, hh⟩ : ∃ w0, ws.head? = some w0 := by
    cases ws with
    | nil => exact absurd rfl hne3
    | cons a l => exact ⟨a, rfl⟩
  obtain ⟨wl, hl⟩ : ∃ wl, ws.getLast? = some wl := by
    cases hq : ws.getLast? with
    | none => exact absurd (List.getLast?_eq_none_iff.mp hq) hne3
    | some x => exact ⟨x, rfl⟩
  have hw0 := chainFrom_head s0 ws w0 hchain hh
  have hwl := chainEnd_getLast s0 ws wl hl
  exact ⟨ws, w0, wl, hws, hh, hl, by omega, by omega,
    fun w hw => (hall w hw).1, chainFrom_pulseChain ws s0 hchain⟩

/-- C9 witness: the witness range with an empty pull list. -/
theorem claim9_witness :
    (wStart ≤ wEnd ∧ ∀ p ∈ ([] : List PrEntry), wfPull p = true) ∧
    (∃ ws w0 wl,
      getPulses wCfg wStart wEnd [] [] (fuelFor wStart wEnd) = some ws ∧
      ws.head? = some w0 ∧ ws.getLast? = some wl ∧
      w0.start ≤ wStart ∧ wEnd < wl.endT ∧
      (∀ w ∈ ws, w.start ≤ wEnd) ∧ pulseChain ws = true) :=
  ⟨⟨by decide, by simp⟩,
   claim9_termination wCfg [] [] wStart wEnd (by decide) (by simp)⟩

/-- C10: pulls whose author login is empty or starts with `renovate` are
skipped when building contributor intervals (`getUsers` gives the same map
with them removed), yet with an empty allowlist `pulsePulls` classifies
every pull by the author-independent window rules, so those same pulls
still enter every raw and normalized window metric. -/
theorem claim10_bot_logins (cfg : Config) (now : Int) (pulls : List PrEntry)
    (s e : Int) (hnil : cfg.allowlist = [])
    (hwf : ∀ q ∈ pulls, wfPull q = true) :
    getUsers cfg now pulls =
      getUsers cfg now (pulls.filter (fun p => !skippedLogin p.login)) ∧
    pulsePulls cfg pulls s e =
      some (pulls.filterMap (classifyPullNoAllow s e)) := by
  constructor
  · unfold getUsers
    exact getUsers_skip_filter cfg now pulls []
  · rw [pulsePulls_eq_filterMap cfg s e pulls hwf]
    have hcong : ∀ l : List PrEntry,
        l.filterMap (classifyPull cfg s e) =
          l.filterMap (classifyPullNoAllow s e) := by
      intro l
      induction l with
      | nil => rfl
      | cons q qs ih =>
        rw [List.filterMap_cons, List.filterMap_cons,
          classifyPull_nil cfg hnil s e q, ih]
    rw [hcong]

/-- C10 witness: a bot-authored open pull contributes no contributor
interval but is classified open for the window `[0, 86400)`. -/
theorem claim10_witness :
    (wCfg.allowlist = [] ∧ (∀ q ∈ [wPrBot], wfPull q = true)) ∧
    (getUsers wCfg 100 [wPrBot] =
      getUsers wCfg 100 ([wPrBot].filter (fun p => !skippedLogin p.login)) ∧
    pulsePulls wCfg [wPrBot] 0 86400 =
      some ([wPrBot].filterMap (classifyPullNoAllow 0 86400))) :=
  ⟨⟨rfl, by decide⟩,
   claim10_bot_logins wCfg 100 [wPrBot] 0 86400 rfl (by decide)⟩
